import Mathlib

/-!
Postfix calculator (`src/main.cpp`)

A shallow embedding of the calculator: statements (`ConstOp`, `Operation`, `Combine`),
the built-in operations, `Combine::append`, `compile` and `operator|`, followed by the
properties proved about them.

Conventions of the embedding.
* A `std::vector<int>` stack is a `List Int` whose last element is the top; a value of type
  `int` is an integer in `[-2^31, 2^31)` (`isInt32`), and the narrowing of an `int64_t`
  to `int` is `toInt32`.
* `std::cin` is the list of the integers still to be read.
* A run that leaves defined behaviour, or that throws, ends in a `Fault`.
-/

namespace Calculator

/-- The points at which the embedding stops following a run. Only `out_of_range` is a
C++ exception (thrown by `std::stoi`); the code has no `throw` of its own. The other
faults mark the operation at which the C++ run leaves defined behaviour: what the
program does from there on is not determined by the source, and the embedding says
nothing about it. -/
inductive Fault where
  /-- `std::stoi` throws `std::out_of_range`. -/
  | out_of_range
  /-- A vector is indexed outside its bounds, or `pop_back` is called on an empty vector. -/
  | outOfBounds
  /-- An `int64_t` division or remainder with divisor zero. -/
  | divByZero
  /-- A null pointer returned by a failed `dynamic_cast` is dereferenced. -/
  | nullDeref
  /-- The extraction `std::cin >> buf` found no integer, `buf` has no defined value. -/
  | inputFailed
  deriving DecidableEq, Repr

/-- Whether the fault is a C++ exception that a caller could catch. -/
def Fault.isException : Fault → Bool
  | .out_of_range => true
  | _ => false

deriving instance DecidableEq for Except

/-- The vector of 64-bit integers passed to and returned by a native function. -/
abbrev funcIO := List Int

/-- The stack together with the unread part of `std::cin`. -/
abbrev Config := List Int × List Int

/-- The values of type `int`. -/
def isInt32 (x : Int) : Prop := -2147483648 ≤ x ∧ x ≤ 2147483647

instance (x : Int) : Decidable (isInt32 x) := by unfold isInt32; infer_instance

/-- Conversion of an `int64_t` to `int` (`in.push_back(result[i])`): reduction modulo
`2^32` into the signed range. -/
def toInt32 (x : Int) : Int := (x + 2147483648) % 4294967296 - 2147483648

/-- The type of the native function of an `Operation`,
`std::function<funcIO(funcIO)>`, with `std::cin` made explicit. -/
abbrev Func := funcIO → List Int → Except Fault ( funcIO × List Int)

/-- The statements of the program: the three classes derived from `Statement`. The
fields `arguments`, `results`, `pure` of `Operation` and `Combine` are those of the
base class; a `ConstOp` is constructed with `Statement(0, 1, true)`. -/
inductive Statement where
  | constOp (val : Int)
  | operation (arguments results : Int) (pure : Bool) (func : Func)
  | combine (arguments results : Int) (pure : Bool) (ops : List Statement)

/-- Modelled from the spec: `statement.h` is not in the sources; `get_arguments_count`
returns the `arguments` attribute the statement was constructed with. -/
def Statement.get_arguments_count : Statement → Int
  | .constOp _ => 0
  | .operation a _ _ _ => a
  | .combine a _ _ _ => a

/-- Modelled from the spec: `statement.h` is not in the sources; `get_results_count`
returns the `results` attribute of the statement. -/
def Statement.get_results_count : Statement → Int
  | .constOp _ => 1
  | .operation _ r _ _ => r
  | .combine _ r _ _ => r

/-- Modelled from the spec: `statement.h` is not in the sources; `is_pure` returns the
`pure` attribute of the statement. -/
def Statement.is_pure : Statement → Bool
  | .constOp _ => true
  | .operation _ _ p _ => p
  | .combine _ _ p _ => p

/-- The element `v[i]` of a vector; outside the bounds the behaviour is undefined. -/
def index (v : List Int) (i : Int) : Except Fault Int :=
  if 0 ≤ i ∧ i < v.length then
    match v.get? i.toNat with
    | some x => .ok x
    | none => .error .outOfBounds
  else .error .outOfBounds

/-- First loop of `Operation::apply`: iterations `i, i+1, ...` (`n` of them) push
`in[in.size() - arguments + i]` onto `args`. -/
def readArgs (inp : List Int) (arguments : Int) : Nat → Nat → funcIO → Except Fault funcIO
  | _, 0, args => .ok args
  | i, n + 1, args =>
    match index inp ((inp.length : Int) - arguments + (i : Int)) with
    | .error e => .error e
    | .ok x => readArgs inp arguments (i + 1) n (args ++ [x])

/-- Second loop of `Operation::apply`: `n` calls of `in.pop_back()`. -/
def popArgs : Nat → List Int → Except Fault (List Int)
  | 0, inp => .ok inp
  | n + 1, inp => if inp = [] then .error .outOfBounds else popArgs n inp.dropLast

/-- Third loop of `Operation::apply`: iterations `i, i+1, ...` (`n` of them) push
`result[i]`, narrowed to `int`, onto the stack. -/
def pushResults (result : funcIO) : Nat → Nat → List Int → Except Fault (List Int)
  | _, 0, inp => .ok inp
  | i, n + 1, inp =>
    match index result (i : Int) with
    | .error e => .error e
    | .ok v => pushResults result (i + 1) n (inp ++ [toInt32 v])

/-- `Operation::apply`. -/
def Operation.apply (arguments results : Int) (func : Func) (st : Config) :
    Except Fault Config :=
  match readArgs st.1 arguments 0 arguments.toNat [] with
  | .error e => .error e
  | .ok args =>
    match popArgs arguments.toNat st.1 with
    | .error e => .error e
    | .ok inp =>
      match func args st.2 with
      | .error e => .error e
      | .ok (result, cin) =>
        match pushResults result 0 results.toNat inp with
        | .error e => .error e
        | .ok out => .ok (out, cin)

mutual
/-- The virtual `apply`: `ConstOp::apply`, `Operation::apply`, `Combine::apply`. -/
def Statement.apply : Statement → Config → Except Fault Config
  | .constOp val, st => .ok (st.1 ++ [val], st.2)
  | .operation arguments results _ func, st => Operation.apply arguments results func st
  | .combine _ _ _ ops, st => applyOps ops st
/-- The loop of `Combine::apply`: `in = c->apply(in)` for each child in order. -/
def applyOps : List Statement → Config → Except Fault Config
  | [], st => .ok st
  | c :: cs, st =>
    match c.apply st with
    | .error e => .error e
    | .ok st1 => applyOps cs st1
end

/-- The native function of `plus`. -/
def plusFunc : Func :=
  fun args cin =>
    match index args 0, index args 1 with
    | .ok a, .ok b => .ok ([a + b], cin)
    | _, _ => .error .outOfBounds

/-- `plus`: `args[0] + args[1]`. -/
def plus : Statement :=
  .operation 2 1 true plusFunc

/-- The native function of `minus`. -/
def minusFunc : Func :=
  fun args cin =>
    match index args 0, index args 1 with
    | .ok a, .ok b => .ok ([a - b], cin)
    | _, _ => .error .outOfBounds

/-- `minus`: `args[0] - args[1]`. -/
def minus : Statement :=
  .operation 2 1 true minusFunc

/-- The native function of `mult`. -/
def multFunc : Func :=
  fun args cin =>
    match index args 0, index args 1 with
    | .ok a, .ok b => .ok ([a * b], cin)
    | _, _ => .error .outOfBounds

/-- `mult`: `args[0] * args[1]`. -/
def mult : Statement :=
  .operation 2 1 true multFunc

/-- The native function of `divide`. -/
def divideFunc : Func :=
  fun args cin =>
    match index args 0, index args 1 with
    | .ok a, .ok b => if b = 0 then .error .divByZero else .ok ([Int.tdiv a b], cin)
    | _, _ => .error .outOfBounds

/-- `divide`: `args[0] / args[1]`, the truncating division of C++; a zero divisor is
undefined behaviour. -/
def divide : Statement :=
  .operation 2 1 true divideFunc

/-- The native function of `percent`. -/
def percentFunc : Func :=
  fun args cin =>
    match index args 0, index args 1 with
    | .ok a, .ok b => if b = 0 then .error .divByZero else .ok ([Int.tmod a b], cin)
    | _, _ => .error .outOfBounds

/-- `percent`: `args[0] % args[1]`, the remainder of the truncating division; a zero
divisor is undefined behaviour. -/
def percent : Statement :=
  .operation 2 1 true percentFunc

/-- The native function of `myabs`. -/
def myabsFunc : Func :=
  fun args cin =>
    match index args 0 with
    | .ok a => .ok ([if a ≥ 0 then a else -a], cin)
    | .error e => .error e

/-- `myabs`: `args[0] >= 0 ? args[0] : -args[0]`. -/
def myabs : Statement :=
  .operation 1 1 true myabsFunc

/-- The native function of `input`. -/
def inputFunc : Func :=
  fun _ cin =>
    match cin with
    | [] => .error .inputFailed
    | buf :: rest => .ok ([buf], rest)

/-- `input`: `std::cin >> buf`, returning `buf`. -/
def input : Statement :=
  .operation 0 1 false inputFunc

/-- The native function of `dublicate`. -/
def dublicateFunc : Func :=
  fun args cin =>
    match index args 0 with
    | .ok a => .ok ([a, a], cin)
    | .error e => .error e

/-- `dublicate`: `args[0], args[0]`. -/
def dublicate : Statement :=
  .operation 1 2 true dublicateFunc

/-- The data members of a `Combine` object: the three of the base class and `ops`. -/
structure Combine where
  arguments : Int
  results : Int
  pure : Bool
  ops : List Statement

/-- A `Combine` seen as a `Statement` (the conversion of `shared_ptr<Combine>` to
`shared_ptr<Statement>`). -/
def Combine.toStatement (c : Combine) : Statement :=
  .combine c.arguments c.results c.pure c.ops

/-- The cast `dynamic_cast<Combine*>`: `none` is the null pointer. -/
def Statement.asCombine : Statement → Option Combine
  | .combine a r p ops => some ⟨a, r, p, ops⟩
  | _ => none

/-- The constructor `Combine(ops = {})`, which sets `Statement(0, 0, true)`. -/
def Combine.new (ops : List Statement) : Combine := ⟨0, 0, true, ops⟩

/-- `Combine::append`. -/
def Combine.append (self : Combine) (op : Statement) : Combine :=
  let pure := self.pure && op.is_pure
  if self.results < op.get_arguments_count then
    { arguments := self.arguments + (op.get_arguments_count - self.results)
      results := op.get_results_count
      pure := pure
      ops := self.ops ++ [op] }
  else
    { arguments := self.arguments
      results := self.results + (op.get_results_count - op.get_arguments_count)
      pure := pure
      ops := self.ops ++ [op] }

/-- The regular expression `^(\+|\-)?([0-9]+)$` under `std::regex_match`: the two
groups of the match, if the whole of `buf` matches. -/
def constantRegex (buf : List Char) : Option (List Char × List Char) :=
  let groups : List Char × List Char :=
    match buf with
    | '+' :: ds => (['+'], ds)
    | '-' :: ds => (['-'], ds)
    | ds => ([], ds)
  if groups.2 ≠ [] ∧ groups.2.all Char.isDigit = true then some groups else none

/-- The value of a string of decimal digits. -/
def digitsValue (digits : List Char) : Nat :=
  digits.foldl (fun acc c => 10 * acc + (c.toNat - 48)) 0

/-- `std::stoi` on a string of decimal digits: the value, or `std::out_of_range` when it
does not fit in an `int`. -/
def stoi (digits : List Char) : Except Fault Int :=
  if digitsValue digits > 2147483647 then .error .out_of_range
  else .ok (digitsValue digits : Int)

/-- The table `symbolMatch`. -/
def symbolMatch : List (List Char × Statement) :=
  [(['+'], plus), (['-'], minus), (['*'], mult), (['/'], divide), (['%'], percent),
   (['a', 'b', 's'], myabs), (['i', 'n', 'p', 'u', 't'], input), (['d', 'u', 'p'], dublicate)]

/-- Lookup in `symbolMatch` (`symbolMatch.count(buf)`, `symbolMatch[buf]`). -/
def symbolLookup (buf : List Char) : Option Statement :=
  (symbolMatch.find? (fun e => e.1 = buf)).map Prod.snd

/-- The body of the `for` loop of `compile` once `buf` has been read. -/
def resolve (result : Combine) (buf : List Char) : Except Fault Combine :=
  if buf = [] then .ok result
  else
    match constantRegex buf with
    | some numMatch =>
      match stoi numMatch.2 with
      | .error e => .error e
      | .ok val =>
        let sign : Int := if numMatch.1 = [] ∨ numMatch.1 = ['+'] then 1 else -1
        .ok (result.append (.constOp (sign * val)))
    | none =>
      match symbolLookup buf with
      | some op => .ok (result.append op)
      | none => .ok result

/-- The loops of `compile`, one step for each character `str[i]`: the inner `while`
adds a character other than a space to `buf`; a space, or the end of the text, ends the
inner `while`, the body resolves `buf`, and the `++i` of the `for` steps over the space. -/
def compileLoop : List Char → List Char → Combine → Except Fault Combine
  | [], buf, result => resolve result buf
  | c :: str, buf, result =>
    if c ≠ ' ' then compileLoop str (buf ++ [c]) result
    else
      match resolve result buf with
      | .error e => .error e
      | .ok result1 => compileLoop str [] result1

/-- `compile`. The text is taken as its sequence of characters; only the space, the sign
and the digit characters and the letters of the mnemonics are told apart. -/
def compile (str : String) : Except Fault Statement :=
  match compileLoop str.toList [] (Combine.new []) with
  | .error e => .error e
  | .ok result => .ok result.toStatement

/-- `operator|`: a copy of `*lhsCombine` onto whose `ops` the children of `rhs` are
pushed. -/
def pipe (lhs rhs : Statement) : Except Fault Statement :=
  match lhs.asCombine, rhs.asCombine with
  | some lhsCombine, some rhsCombine =>
    .ok ({ lhsCombine with
            ops := rhsCombine.ops.foldl (fun ops rhsOp => ops ++ [rhsOp]) lhsCombine.ops } :
          Combine).toStatement
  | _, _ => .error .nullDeref

/-- `lhs | rhs` for operands that are themselves results of `compile` or `operator|`. -/
def pipeE (lhs rhs : Except Fault Statement) : Except Fault Statement :=
  match lhs, rhs with
  | .ok l, .ok r => pipe l r
  | .error e, _ => .error e
  | _, .error e => .error e

/-- The triple `(get_arguments_count(), get_results_count(), is_pure())`. -/
def Statement.contract (s : Statement) : Int × Int × Bool :=
  (s.get_arguments_count, s.get_results_count, s.is_pure)

/-- Runs `apply` on the result of `compile` or `operator|`. -/
def run (p : Except Fault Statement) (st : Config) : Except Fault Config :=
  match p with
  | .error e => .error e
  | .ok s => s.apply st


/-- A statement keeps to its declared stack effect: on a stack shorter than
`arguments` the run of its `apply` ends in a fault; on a stack `base ++ t` whose top `t` holds
exactly `arguments` values it reads nothing out of bounds and, if it returns, returns
`base` followed by `results` values; and it never throws. -/
structure Statement.Conforms (c : Statement) : Prop where
  args_nonneg : 0 ≤ c.get_arguments_count
  res_nonneg : 0 ≤ c.get_results_count
  short : ∀ (s cin : List Int), (s.length : Int) < c.get_arguments_count →
    ∃ e, c.apply (s, cin) = .error e
  no_throw : ∀ (st : Config) (e : Fault), c.apply st = .error e → e.isException = false
  in_bounds : ∀ (base t cin : List Int), (t.length : Int) = c.get_arguments_count →
    c.apply (base ++ t, cin) ≠ .error .outOfBounds
  effect : ∀ (base t cin out cin1 : List Int), (t.length : Int) = c.get_arguments_count →
    c.apply (base ++ t, cin) = .ok (out, cin1) →
    ∃ t1 : List Int, out = base ++ t1 ∧ (t1.length : Int) = c.get_results_count


/-- The member `ops` of a statement that is a `Combine`. -/
def Statement.ops : Statement → List Statement
  | .combine _ _ _ ops => ops
  | _ => []

/-- The pipeline `p | p | ... | p` with `k + 1` operands, associated to the left as
C++ parses `inc | inc | inc | inc`. -/
def pipeCopies (p : Except Fault Statement) : Nat → Except Fault Statement
  | 0 => p
  | k + 1 => pipeE (pipeCopies p k) p

/-- Sequencing of two runs: the second starts from the configuration the first returns,
and a fault of the first is the fault of the whole. -/
def andThen (first : Except Fault Config) (second : Config → Except Fault Config) :
    Except Fault Config :=
  match first with
  | .error e => .error e
  | .ok st => second st


/-- The tokens joined with single spaces. -/
def spaceJoin : List (List Char) → List Char
  | [] => []
  | [t] => t
  | t :: ts => t ++ ' ' :: spaceJoin ts

/-- The body of the `for` loop of `compile` run on each token of a list in order. -/
def resolveAll (result : Combine) : List (List Char) → Except Fault Combine
  | [] => .ok result
  | t :: ts =>
    match resolve result t with
    | .error e => .error e
    | .ok result1 => resolveAll result1 ts

/-- The token is an integer literal (it matches `constantRegex`) or a key of
`symbolMatch`. -/
def recognized (t : List Char) : Bool :=
  (constantRegex t).isSome || (symbolLookup t).isSome

/-- The tokens with padding: every token but the last is followed by `gap + 1` spaces,
the last by `trail` spaces. -/
def padJoin (trail : Nat) : List (List Char × Nat) → List Char
  | [] => List.replicate trail ' '
  | [(t, _)] => t ++ List.replicate trail ' '
  | (t, gap) :: rest => t ++ List.replicate (gap + 1) ' ' ++ padJoin trail rest

/-- Calls `append` for each child of a list in order. -/
def Combine.appendAll (self : Combine) (children : List Statement) : Combine :=
  children.foldl Combine.append self

/-- The value of a `ConstOp` child, if the statement is one. -/
def Statement.literalValue : Statement → Option Int
  | .constOp val => some val
  | _ => none


/-- Every `ConstOp` child of the pipeline holds a value in
`[-2147483647, 2147483647]`. -/
def Combine.LiteralsInRange (P : Combine) : Prop :=
  ∀ c ∈ P.ops, ∀ v, c.literalValue = some v → -2147483647 ≤ v ∧ v ≤ 2147483647


/-- The derived triple `(arguments, results, pure)` of a `Combine`. -/
def Combine.triple (P : Combine) : Int × Int × Bool :=
  (P.arguments, P.results, P.pure)


/-- The faults at which a run of `apply` can leave defined behaviour in this program:
the out-of-bounds access, the division by zero and the failed read. -/
def Fault.ofApply (e : Fault) : Prop :=
  e = .outOfBounds ∨ e = .divByZero ∨ e = .inputFailed

/-- Every fault of `apply` of the statement is one of `Fault.ofApply`. -/
def Statement.FaultsKnown (c : Statement) : Prop :=
  ∀ (st : Config) (e : Fault), c.apply st = .error e → e.ofApply


/-! ## `Operation::apply` on a stack that holds the arguments -/

theorem index_append_mid (s rest : List Int) (x : Int) :
    index (s ++ x :: rest) (s.length : Int) = .ok x := by
  unfold index
  have h : (0 : Int) ≤ s.length ∧ (s.length : Int) < (s ++ x :: rest).length := by
    constructor
    · exact Int.ofNat_nonneg _
    · simp only [List.length_append, List.length_cons]; omega
  rw [if_pos h]
  have hget : (s ++ x :: rest).get? s.length = some x := by
    induction s with
    | nil => rfl
    | cons y s ih => simpa using ih
  simp only [Int.toNat_ofNat, hget]

theorem index_of_neg (v : List Int) (i : Int) (h : i < 0) : index v i = .error .outOfBounds := by
  unfold index
  rw [if_neg]
  omega

theorem readArgs_append (s : List Int) :
    ∀ (rest pre args : List Int),
      readArgs (s ++ pre ++ rest) ((pre.length + rest.length : Nat) : Int) pre.length
        rest.length args = .ok (args ++ rest) := by
  intro rest
  induction rest with
  | nil => intro pre args; simp [readArgs]
  | cons x rest ih =>
    intro pre args
    have hidx : (((s ++ pre ++ x :: rest).length : Int) -
        ((pre.length + (x :: rest).length : Nat) : Int) + (pre.length : Int))
        = ((s ++ pre).length : Int) := by
      simp only [List.length_append, List.length_cons]; push_cast; ring
    have hstep := ih (pre ++ [x]) (args ++ [x])
    simp only [List.length_append, List.length_cons, List.length_nil, List.append_assoc,
      List.singleton_append] at hstep
    have hlen : pre.length + 1 + rest.length = pre.length + (rest.length + 1) := by omega
    rw [hlen] at hstep
    simp only [readArgs, List.length_cons]
    simp only [List.length_cons] at hidx
    rw [hidx, index_append_mid]
    simp only [List.append_assoc]
    simpa using hstep

theorem popArgs_append (s : List Int) :
    ∀ (n : Nat) (t : List Int), t.length = n → popArgs n (s ++ t) = .ok s := by
  intro n
  induction n with
  | zero =>
    intro t ht
    have : t = [] := List.length_eq_zero.mp ht
    subst this
    simp [popArgs]
  | succ n ih =>
    intro t ht
    rcases List.eq_nil_or_concat t with h | ⟨t1, x, h⟩
    · subst h; simp at ht
    · rw [List.concat_eq_append] at h
      subst h
      have ht1 : t1.length = n := by simpa using ht
      have hne : s ++ (t1 ++ [x]) ≠ [] := by simp
      simp only [popArgs, if_neg hne]
      rw [← List.append_assoc, List.dropLast_concat]
      exact ih t1 ht1

theorem pushResults_append (pre : List Int) :
    ∀ (n : Nat) (rest inp : List Int), n ≤ rest.length →
      pushResults (pre ++ rest) pre.length n inp = .ok (inp ++ (rest.take n).map toInt32) := by
  intro n
  induction n generalizing pre with
  | zero => intro rest inp _; simp [pushResults]
  | succ n ih =>
    intro rest inp hn
    cases rest with
    | nil => simp at hn
    | cons x rest =>
      have hn1 : n ≤ rest.length := by simpa using hn
      have hstep := ih (pre ++ [x]) rest (inp ++ [toInt32 x]) hn1
      simp only [List.length_append, List.length_cons, List.length_nil, List.append_assoc,
        List.singleton_append] at hstep
      simp only [pushResults, index_append_mid]
      simpa using hstep

/-- `Operation::apply` on a stack `s ++ t` whose top `t` holds exactly the arguments:
the native function is called on `t`, and its first `results` values are pushed onto `s`. -/
theorem Operation.apply_append (a r : Nat) (func : Func) (s t cin : List Int)
    (ht : t.length = a) :
    Operation.apply (a : Int) (r : Int) func (s ++ t, cin) =
      match func t cin with
      | .error e => .error e
      | .ok (result, cin1) =>
        match pushResults result 0 r s with
        | .error e => .error e
        | .ok out => .ok (out, cin1) := by
  have h1 := readArgs_append s t [] []
  simp only [List.length_nil, List.append_nil, Nat.zero_add, List.nil_append, ht] at h1
  have h2 := popArgs_append s a t ht
  simp only [Operation.apply, Int.toNat_ofNat, h1, h2]

/-- `Operation::apply` on a stack shorter than `arguments` reads outside the vector. -/
theorem Operation.apply_short (a r : Int) (func : Func) (s cin : List Int)
    (h : (s.length : Int) < a) :
    Operation.apply a r func (s, cin) = .error .outOfBounds := by
  have ha : a.toNat = (a.toNat - 1) + 1 := by omega
  unfold Operation.apply
  rw [ha]
  simp only [readArgs]
  rw [index_of_neg _ _ (by simp only [Nat.cast_zero, add_zero]; omega)]


/-! ## `Combine::apply` and `Combine::append` -/

theorem applyOps_append (xs ys : List Statement) (st : Config) :
    applyOps (xs ++ ys) st =
      match applyOps xs st with
      | .error e => .error e
      | .ok st1 => applyOps ys st1 := by
  induction xs generalizing st with
  | nil => simp [applyOps]
  | cons c cs ih =>
    simp only [List.cons_append, applyOps]
    cases c.apply st with
    | error e => rfl
    | ok st1 => exact ih st1

theorem applyOps_singleton (c : Statement) (st : Config) : applyOps [c] st = c.apply st := by
  simp only [applyOps]
  cases c.apply st <;> rfl

theorem applyOps_concat (ops : List Statement) (c : Statement) (st : Config) :
    applyOps (ops ++ [c]) st =
      match applyOps ops st with
      | .error e => .error e
      | .ok st1 => c.apply st1 := by
  rw [applyOps_append]
  cases applyOps ops st with
  | error e => rfl
  | ok st1 => exact applyOps_singleton c st1

theorem Combine.apply_toStatement (P : Combine) (st : Config) :
    P.toStatement.apply st = applyOps P.ops st := by
  simp [Combine.toStatement, Statement.apply]

theorem Combine.append_ops (P : Combine) (c : Statement) : (P.append c).ops = P.ops ++ [c] := by
  unfold Combine.append
  split <;> rfl

theorem Combine.append_pure (P : Combine) (c : Statement) :
    (P.append c).pure = (P.pure && c.is_pure) := by
  unfold Combine.append
  split <;> rfl

theorem split_top (l : List Int) (n : Int) (h0 : 0 ≤ n) (h : n ≤ l.length) :
    ∃ u v : List Int, l = u ++ v ∧ (v.length : Int) = n := by
  refine ⟨l.take (l.length - n.toNat), l.drop (l.length - n.toNat), ?_, ?_⟩
  · exact (List.take_append_drop _ _).symm
  · rw [List.length_drop]; omega

/-- The empty pipeline keeps to its stack effect `(0, 0)`. -/
theorem Combine.new_conforms : (Combine.new []).toStatement.Conforms where
  args_nonneg := by simp [Combine.new, Combine.toStatement, Statement.get_arguments_count]
  res_nonneg := by simp [Combine.new, Combine.toStatement, Statement.get_results_count]
  short := by
    intro s cin h
    simp [Combine.new, Combine.toStatement, Statement.get_arguments_count] at h
    omega
  no_throw := by
    intro st e h
    simp [Combine.new, Combine.toStatement, Statement.apply, applyOps] at h
  in_bounds := by
    intro base t cin _
    simp [Combine.new, Combine.toStatement, Statement.apply, applyOps]
  effect := by
    intro base t cin out cin1 ht h
    simp only [Combine.new, Combine.toStatement, Statement.apply, applyOps, Except.ok.injEq,
      Prod.mk.injEq] at h
    simp only [Combine.new, Combine.toStatement, Statement.get_arguments_count] at ht
    refine ⟨t, h.1.symm, ?_⟩
    simpa [Combine.new, Combine.toStatement, Statement.get_results_count] using ht

/-- The bookkeeping of `Combine::append` is sound: if the pipeline and the new child keep
to their declared stack effects, the pipeline with the child appended keeps to the
effect that `append` derives. -/
theorem Combine.append_conforms (P : Combine) (c : Statement)
    (hP : P.toStatement.Conforms) (hc : c.Conforms) : (P.append c).toStatement.Conforms := by
  have hPa : P.toStatement.get_arguments_count = P.arguments := rfl
  have hPr : P.toStatement.get_results_count = P.results := rfl
  have hA := hP.args_nonneg
  have hR := hP.res_nonneg
  have ha := hc.args_nonneg
  have hr := hc.res_nonneg
  rw [hPa] at hA
  rw [hPr] at hR
  have happ : ∀ st, (P.append c).toStatement.apply st =
      match P.toStatement.apply st with
      | .error e => .error e
      | .ok st1 => c.apply st1 := by
    intro st
    rw [Combine.apply_toStatement, Combine.apply_toStatement, Combine.append_ops,
      applyOps_concat]
  have hargs : (P.append c).toStatement.get_arguments_count =
      if P.results < c.get_arguments_count then
        P.arguments + (c.get_arguments_count - P.results) else P.arguments := by
    show (P.append c).arguments = _
    unfold Combine.append; split <;> rfl
  have hres : (P.append c).toStatement.get_results_count =
      if P.results < c.get_arguments_count then c.get_results_count
      else P.results + (c.get_results_count - c.get_arguments_count) := by
    show (P.append c).results = _
    unfold Combine.append; split <;> rfl
  refine ⟨?_, ?_, ?_, ?_, ?_, ?_⟩
  · rw [hargs]; split <;> omega
  · rw [hres]; split <;> omega
  · -- short
    intro s cin hs
    rw [happ]
    by_cases hsA : (s.length : Int) < P.arguments
    · obtain ⟨e, he⟩ := hP.short s cin (by rw [hPa]; exact hsA)
      exact ⟨e, by rw [he]⟩
    · obtain ⟨base, t, hst, ht⟩ := split_top s P.arguments hA (by omega)
      cases hrun : P.toStatement.apply (s, cin) with
      | error e => exact ⟨e, rfl⟩
      | ok st1 =>
        obtain ⟨s1, cin1⟩ := st1
        subst hst
        obtain ⟨t1, hs1, ht1⟩ := hP.effect base t cin s1 cin1 (by rw [hPa]; exact ht) hrun
        rw [hPr] at ht1
        have hlt : P.results < c.get_arguments_count := by
          by_contra hge
          rw [hargs, if_neg hge] at hs
          exact hsA hs
        rw [hargs, if_pos hlt] at hs
        simp only [List.length_append] at hs
        push_cast at hs
        have hshort : ((s1.length : Nat) : Int) < c.get_arguments_count := by
          rw [hs1]; simp only [List.length_append]; push_cast; omega
        exact hc.short s1 cin1 hshort
  · -- no_throw
    intro st e h
    rw [happ] at h
    cases hrun : P.toStatement.apply st with
    | error e1 =>
      rw [hrun] at h
      simp only [Except.error.injEq] at h
      subst h
      exact hP.no_throw st e1 hrun
    | ok st1 =>
      rw [hrun] at h
      exact hc.no_throw st1 e h
  · -- in_bounds
    intro base t cin ht h
    rw [happ] at h
    by_cases hlt : P.results < c.get_arguments_count
    · rw [hargs, if_pos hlt] at ht
      obtain ⟨u, v, huv, hv⟩ := split_top t P.arguments hA (by omega)
      subst huv
      rw [← List.append_assoc] at h
      cases hrun : P.toStatement.apply (base ++ u ++ v, cin) with
      | error e1 =>
        rw [hrun] at h
        simp only [Except.error.injEq] at h
        subst h
        exact hP.in_bounds (base ++ u) v cin (by rw [hPa]; exact hv) hrun
      | ok st1 =>
        obtain ⟨s1, cin1⟩ := st1
        rw [hrun] at h
        obtain ⟨t1, hs1, ht1⟩ := hP.effect (base ++ u) v cin s1 cin1 (by rw [hPa]; exact hv) hrun
        rw [hPr] at ht1
        subst hs1
        rw [List.append_assoc] at h
        refine hc.in_bounds base (u ++ t1) cin1 ?_ h
        simp only [List.length_append] at ht ⊢
        push_cast at ht ⊢
        omega
    · rw [hargs, if_neg hlt] at ht
      cases hrun : P.toStatement.apply (base ++ t, cin) with
      | error e1 =>
        rw [hrun] at h
        simp only [Except.error.injEq] at h
        subst h
        exact hP.in_bounds base t cin (by rw [hPa]; exact ht) hrun
      | ok st1 =>
        obtain ⟨s1, cin1⟩ := st1
        rw [hrun] at h
        obtain ⟨t1, hs1, ht1⟩ := hP.effect base t cin s1 cin1 (by rw [hPa]; exact ht) hrun
        rw [hPr] at ht1
        obtain ⟨u, v, huv, hv⟩ := split_top t1 c.get_arguments_count ha (by omega)
        subst hs1 huv
        rw [← List.append_assoc] at h
        exact hc.in_bounds (base ++ u) v cin1 hv h
  · -- effect
    intro base t cin out cin2 ht h
    rw [happ] at h
    by_cases hlt : P.results < c.get_arguments_count
    · rw [hargs, if_pos hlt] at ht
      rw [hres, if_pos hlt]
      obtain ⟨u, v, huv, hv⟩ := split_top t P.arguments hA (by omega)
      subst huv
      rw [← List.append_assoc] at h
      cases hrun : P.toStatement.apply (base ++ u ++ v, cin) with
      | error e1 => rw [hrun] at h; simp at h
      | ok st1 =>
        obtain ⟨s1, cin1⟩ := st1
        rw [hrun] at h
        obtain ⟨t1, hs1, ht1⟩ := hP.effect (base ++ u) v cin s1 cin1 (by rw [hPa]; exact hv) hrun
        rw [hPr] at ht1
        subst hs1
        rw [List.append_assoc] at h
        refine hc.effect base (u ++ t1) cin1 out cin2 ?_ h
        simp only [List.length_append] at ht ⊢
        push_cast at ht ⊢
        omega
    · rw [hargs, if_neg hlt] at ht
      rw [hres, if_neg hlt]
      cases hrun : P.toStatement.apply (base ++ t, cin) with
      | error e1 => rw [hrun] at h; simp at h
      | ok st1 =>
        obtain ⟨s1, cin1⟩ := st1
        rw [hrun] at h
        obtain ⟨t1, hs1, ht1⟩ := hP.effect base t cin s1 cin1 (by rw [hPa]; exact ht) hrun
        rw [hPr] at ht1
        obtain ⟨u, v, huv, hv⟩ := split_top t1 c.get_arguments_count ha (by omega)
        subst hs1 huv
        rw [← List.append_assoc] at h
        obtain ⟨t2, hout, ht2⟩ := hc.effect (base ++ u) v cin1 out cin2 hv h
        refine ⟨u ++ t2, by rw [hout, List.append_assoc], ?_⟩
        simp only [List.length_append] at ht1 ⊢
        push_cast at ht1 ⊢
        omega


/-! ## The children that `compile` creates keep to their declared stack effects -/

theorem constOp_conforms (val : Int) : (Statement.constOp val).Conforms where
  args_nonneg := by simp [Statement.get_arguments_count]
  res_nonneg := by simp [Statement.get_results_count]
  short := by
    intro s cin h
    simp only [Statement.get_arguments_count] at h
    omega
  no_throw := by
    intro st e h
    simp [Statement.apply] at h
  in_bounds := by
    intro base t cin _
    simp [Statement.apply]
  effect := by
    intro base t cin out cin1 ht h
    simp only [Statement.get_arguments_count, Nat.cast_eq_zero, List.length_eq_zero] at ht
    subst ht
    simp only [Statement.apply, List.append_nil, Except.ok.injEq, Prod.mk.injEq] at h
    exact ⟨[val], h.1.symm, by simp [Statement.get_results_count]⟩

/-- An `Operation` keeps to its declared stack effect when its native function, called
on exactly `arguments` values, returns at least `results` values or stops on a division
by zero or a failed read. -/
theorem operation_conforms (a r : Nat) (p : Bool) (func : Func)
    (hf : ∀ (t cin : List Int), t.length = a →
      (∀ e, func t cin = .error e → e = .divByZero ∨ e = .inputFailed) ∧
      (∀ res cin1, func t cin = .ok (res, cin1) → res.length = r)) :
    (Statement.operation (a : Int) (r : Int) p func).Conforms := by
  have hrun : ∀ (base t cin : List Int), t.length = a →
      (Statement.operation (a : Int) (r : Int) p func).apply (base ++ t, cin) =
        match func t cin with
        | .error e => .error e
        | .ok (res, cin1) => .ok (base ++ res.map toInt32, cin1) := by
    intro base t cin ht
    simp only [Statement.apply]
    rw [Operation.apply_append a r func base t cin ht]
    cases hfun : func t cin with
    | error e => rfl
    | ok v =>
      obtain ⟨res, cin1⟩ := v
      have hlen := (hf t cin ht).2 res cin1 hfun
      have hpush := pushResults_append [] r res base (by omega)
      simp only [List.nil_append, List.length_nil] at hpush
      simp only [hpush]
      rw [← hlen, List.take_length]
  refine ⟨by simp [Statement.get_arguments_count], by simp [Statement.get_results_count],
    ?_, ?_, ?_, ?_⟩
  · intro s cin hs
    simp only [Statement.get_arguments_count] at hs
    exact ⟨.outOfBounds, by simp only [Statement.apply]; exact Operation.apply_short _ _ _ _ _ hs⟩
  · intro st e h
    obtain ⟨s, cin⟩ := st
    by_cases hs : (s.length : Int) < (a : Int)
    · simp only [Statement.apply] at h
      rw [Operation.apply_short _ _ _ _ _ hs] at h
      simp only [Except.error.injEq] at h
      subst h; rfl
    · obtain ⟨base, t, hst, ht⟩ := split_top s a (by omega) (by omega)
      subst hst
      have ht1 : t.length = a := by exact_mod_cast ht
      rw [hrun base t cin ht1] at h
      cases hfun : func t cin with
      | error e1 =>
        rw [hfun] at h
        simp only [Except.error.injEq] at h
        subst h
        rcases (hf t cin ht1).1 e1 hfun with h1 | h1 <;> subst h1 <;> rfl
      | ok v => rw [hfun] at h; simp at h
  · intro base t cin ht h
    simp only [Statement.get_arguments_count] at ht
    have ht1 : t.length = a := by exact_mod_cast ht
    rw [hrun base t cin ht1] at h
    cases hfun : func t cin with
    | error e1 =>
      rw [hfun] at h
      simp only [Except.error.injEq] at h
      subst h
      rcases (hf t cin ht1).1 _ hfun with h1 | h1 <;> simp at h1
    | ok v => rw [hfun] at h; simp at h
  · intro base t cin out cin2 ht h
    simp only [Statement.get_arguments_count] at ht
    have ht1 : t.length = a := by exact_mod_cast ht
    rw [hrun base t cin ht1] at h
    cases hfun : func t cin with
    | error e1 => rw [hfun] at h; simp at h
    | ok v =>
      obtain ⟨res, cin1⟩ := v
      rw [hfun] at h
      simp only [Except.ok.injEq, Prod.mk.injEq] at h
      refine ⟨res.map toInt32, h.1.symm, ?_⟩
      simp only [Statement.get_results_count, List.length_map]
      exact_mod_cast (hf t cin ht1).2 res cin1 hfun

theorem length_two (t : List Int) (h : t.length = 2) : ∃ x y, t = [x, y] := by
  match t, h with
  | [x, y], _ => exact ⟨x, y, rfl⟩

theorem length_one (t : List Int) (h : t.length = 1) : ∃ x, t = [x] := by
  match t, h with
  | [x], _ => exact ⟨x, rfl⟩

theorem index_pair_zero (x y : Int) : index [x, y] 0 = .ok x := by
  simp [index]

theorem index_pair_one (x y : Int) : index [x, y] 1 = .ok y := by
  simp [index]

theorem index_single_zero (x : Int) : index [x] 0 = .ok x := by
  simp [index]

theorem plus_conforms : plus.Conforms := by
  unfold plus
  refine operation_conforms 2 1 true _ ?_
  intro t cin ht
  obtain ⟨x, y, rfl⟩ := length_two t ht
  simp [plusFunc, minusFunc, multFunc, index_pair_zero, index_pair_one]

theorem minus_conforms : minus.Conforms := by
  unfold minus
  refine operation_conforms 2 1 true _ ?_
  intro t cin ht
  obtain ⟨x, y, rfl⟩ := length_two t ht
  simp [plusFunc, minusFunc, multFunc, index_pair_zero, index_pair_one]

theorem mult_conforms : mult.Conforms := by
  unfold mult
  refine operation_conforms 2 1 true _ ?_
  intro t cin ht
  obtain ⟨x, y, rfl⟩ := length_two t ht
  simp [plusFunc, minusFunc, multFunc, index_pair_zero, index_pair_one]

theorem divide_conforms : divide.Conforms := by
  unfold divide
  refine operation_conforms 2 1 true _ ?_
  intro t cin ht
  obtain ⟨x, y, rfl⟩ := length_two t ht
  simp only [divideFunc, percentFunc, index_pair_zero, index_pair_one]
  by_cases hy : y = 0 <;> simp [hy]

theorem percent_conforms : percent.Conforms := by
  unfold percent
  refine operation_conforms 2 1 true _ ?_
  intro t cin ht
  obtain ⟨x, y, rfl⟩ := length_two t ht
  simp only [divideFunc, percentFunc, index_pair_zero, index_pair_one]
  by_cases hy : y = 0 <;> simp [hy]

theorem myabs_conforms : myabs.Conforms := by
  unfold myabs
  refine operation_conforms 1 1 true _ ?_
  intro t cin ht
  obtain ⟨x, rfl⟩ := length_one t ht
  simp [myabsFunc, dublicateFunc, index_single_zero]

theorem input_conforms : input.Conforms := by
  unfold input
  refine operation_conforms 0 1 false _ ?_
  intro t cin _
  cases cin <;> simp [inputFunc]

theorem dublicate_conforms : dublicate.Conforms := by
  unfold dublicate
  refine operation_conforms 1 2 true _ ?_
  intro t cin ht
  obtain ⟨x, rfl⟩ := length_one t ht
  simp [myabsFunc, dublicateFunc, index_single_zero]

theorem symbolMatch_conforms (entry : List Char × Statement) (h : entry ∈ symbolMatch) :
    entry.2.Conforms := by
  simp only [symbolMatch, List.mem_cons, List.mem_singleton, List.not_mem_nil, or_false] at h
  rcases h with h | h | h | h | h | h | h | h <;> subst h
  · exact plus_conforms
  · exact minus_conforms
  · exact mult_conforms
  · exact divide_conforms
  · exact percent_conforms
  · exact myabs_conforms
  · exact input_conforms
  · exact dublicate_conforms

theorem symbolLookup_mem (buf : List Char) (op : Statement) (h : symbolLookup buf = some op) :
    (buf, op) ∈ symbolMatch := by
  unfold symbolLookup at h
  cases hfind : symbolMatch.find? (fun e => e.1 = buf) with
  | none => rw [hfind] at h; simp at h
  | some entry =>
    rw [hfind] at h
    simp only [Option.map_some', Option.some.injEq] at h
    have hmem := List.mem_of_find?_eq_some hfind
    have hkey := List.find?_some hfind
    simp only [decide_eq_true_eq] at hkey
    obtain ⟨k, v⟩ := entry
    simp only at h hkey
    subst h hkey
    exact hmem

theorem symbolLookup_conforms (buf : List Char) (op : Statement)
    (h : symbolLookup buf = some op) : op.Conforms :=
  symbolMatch_conforms (buf, op) (symbolLookup_mem buf op h)

/-- Every child that `resolve` appends is a `ConstOp` or an entry of `symbolMatch`. -/
theorem resolve_cases (result : Combine) (buf : List Char) (out : Combine)
    (h : resolve result buf = .ok out) :
    out = result ∨ (∃ val, out = result.append (.constOp val)) ∨
      (∃ op, symbolLookup buf = some op ∧ out = result.append op) := by
  unfold resolve at h
  split at h
  · simp only [Except.ok.injEq] at h; exact Or.inl h.symm
  · split at h
    · split at h
      · simp at h
      · simp only [Except.ok.injEq] at h
        exact Or.inr (Or.inl ⟨_, h.symm⟩)
    · split at h
      · rename_i op hop
        simp only [Except.ok.injEq] at h
        exact Or.inr (Or.inr ⟨op, hop, h.symm⟩)
      · simp only [Except.ok.injEq] at h; exact Or.inl h.symm

theorem resolve_conforms (result : Combine) (buf : List Char) (out : Combine)
    (h : resolve result buf = .ok out) (hres : result.toStatement.Conforms) :
    out.toStatement.Conforms := by
  rcases resolve_cases result buf out h with h1 | ⟨val, h1⟩ | ⟨op, hop, h1⟩
  · subst h1; exact hres
  · subst h1; exact Combine.append_conforms _ _ hres (constOp_conforms val)
  · subst h1; exact Combine.append_conforms _ _ hres (symbolLookup_conforms buf op hop)

theorem compileLoop_conforms (str : List Char) :
    ∀ (buf : List Char) (result out : Combine), compileLoop str buf result = .ok out →
      result.toStatement.Conforms → out.toStatement.Conforms := by
  induction str with
  | nil =>
    intro buf result out h hres
    exact resolve_conforms result buf out h hres
  | cons c str ih =>
    intro buf result out h hres
    simp only [compileLoop] at h
    split at h
    · exact ih _ _ _ h hres
    · split at h
      · simp at h
      · rename_i result1 h1
        exact ih _ _ _ h (resolve_conforms result buf result1 h1 hres)

/-- A successful `compile` returns a `Combine` that keeps to its derived stack effect. -/
theorem compile_conforms (str : String) (P : Statement) (h : compile str = .ok P) :
    P.Conforms := by
  unfold compile at h
  split at h
  · simp at h
  · rename_i result hloop
    simp only [Except.ok.injEq] at h
    subst h
    exact compileLoop_conforms _ _ _ _ hloop Combine.new_conforms


/-! ## The faults of `apply` -/

theorem index_error (v : List Int) (i : Int) (e : Fault) (h : index v i = .error e) :
    e = .outOfBounds := by
  unfold index at h
  split at h
  · split at h
    · simp at h
    · simp only [Except.error.injEq] at h; exact h.symm
  · simp only [Except.error.injEq] at h; exact h.symm

theorem readArgs_error (inp : List Int) (arguments : Int) :
    ∀ (n i : Nat) (args : List Int) (e : Fault),
      readArgs inp arguments i n args = .error e → e = .outOfBounds := by
  intro n
  induction n with
  | zero => intro i args e h; simp [readArgs] at h
  | succ n ih =>
    intro i args e h
    simp only [readArgs] at h
    split at h
    · rename_i e1 hidx
      simp only [Except.error.injEq] at h
      subst h
      exact index_error _ _ _ hidx
    · exact ih _ _ _ h

theorem popArgs_error :
    ∀ (n : Nat) (inp : List Int) (e : Fault), popArgs n inp = .error e → e = .outOfBounds := by
  intro n
  induction n with
  | zero => intro inp e h; simp [popArgs] at h
  | succ n ih =>
    intro inp e h
    simp only [popArgs] at h
    split at h
    · simp only [Except.error.injEq] at h; exact h.symm
    · exact ih _ _ h

theorem pushResults_error (result : List Int) :
    ∀ (n i : Nat) (inp : List Int) (e : Fault),
      pushResults result i n inp = .error e → e = .outOfBounds := by
  intro n
  induction n with
  | zero => intro i inp e h; simp [pushResults] at h
  | succ n ih =>
    intro i inp e h
    simp only [pushResults] at h
    split at h
    · rename_i e1 hidx
      simp only [Except.error.injEq] at h
      subst h
      exact index_error _ _ _ hidx
    · exact ih _ _ _ h

/-- The faults of `Operation::apply` are the out-of-bounds access of its loops and the
faults of the native function. -/
theorem Operation.apply_error (a r : Int) (func : Func) (st : Config) (e : Fault)
    (hf : ∀ args cin e1, func args cin = .error e1 → e1.ofApply)
    (h : Operation.apply a r func st = .error e) : e.ofApply := by
  unfold Operation.apply at h
  split at h
  · rename_i e1 h1
    simp only [Except.error.injEq] at h
    subst h
    exact Or.inl (readArgs_error _ _ _ _ _ _ h1)
  · split at h
    · rename_i e1 h1
      simp only [Except.error.injEq] at h
      subst h
      exact Or.inl (popArgs_error _ _ _ h1)
    · split at h
      · rename_i e1 h1
        simp only [Except.error.injEq] at h
        subst h
        exact hf _ _ _ h1
      · split at h
        · rename_i e1 h1
          simp only [Except.error.injEq] at h
          subst h
          exact Or.inl (pushResults_error _ _ _ _ _ h1)
        · simp at h

theorem constOp_faultsKnown (val : Int) : (Statement.constOp val).FaultsKnown := by
  intro st e h
  simp [Statement.apply] at h

theorem operation_faultsKnown (a r : Int) (p : Bool) (func : Func)
    (hf : ∀ args cin e1, func args cin = .error e1 → e1.ofApply) :
    (Statement.operation a r p func).FaultsKnown := by
  intro st e h
  simp only [Statement.apply] at h
  exact Operation.apply_error a r func st e hf h

theorem binary_error (f : Int → Int → List Int → Except Fault ( funcIO × List Int))
    (args cin : List Int) (e : Fault)
    (hf : ∀ x y e1, f x y cin = .error e1 → e1.ofApply)
    (h : (match index args 0, index args 1 with
      | .ok x, .ok y => f x y cin
      | _, _ => .error .outOfBounds) = .error e) : e.ofApply := by
  split at h
  · exact hf _ _ _ h
  · simp only [Except.error.injEq] at h
    exact Or.inl h.symm

theorem unary_error (f : Int → List Int → Except Fault ( funcIO × List Int))
    (args cin : List Int) (e : Fault)
    (hf : ∀ x e1, f x cin = .error e1 → e1.ofApply)
    (h : (match index args 0 with
      | .ok x => f x cin
      | .error e1 => .error e1) = .error e) : e.ofApply := by
  split at h
  · exact hf _ _ h
  · rename_i e1 h1
    simp only [Except.error.injEq] at h
    subst h
    exact Or.inl (index_error _ _ _ h1)

theorem symbolMatch_faultsKnown (entry : List Char × Statement) (h : entry ∈ symbolMatch) :
    entry.2.FaultsKnown := by
  simp only [symbolMatch, List.mem_cons, List.mem_singleton, List.not_mem_nil, or_false] at h
  rcases h with h | h | h | h | h | h | h | h <;> subst h
  · refine operation_faultsKnown 2 1 true plusFunc ?_
    intro args cin e h
    exact binary_error (fun x y cin => .ok ([x + y], cin)) args cin e
      (by intro x y e1 h1; simp at h1) h
  · refine operation_faultsKnown 2 1 true minusFunc ?_
    intro args cin e h
    exact binary_error (fun x y cin => .ok ([x - y], cin)) args cin e
      (by intro x y e1 h1; simp at h1) h
  · refine operation_faultsKnown 2 1 true multFunc ?_
    intro args cin e h
    exact binary_error (fun x y cin => .ok ([x * y], cin)) args cin e
      (by intro x y e1 h1; simp at h1) h
  · refine operation_faultsKnown 2 1 true divideFunc ?_
    intro args cin e h
    refine binary_error
      (fun x y cin => if y = 0 then .error .divByZero else .ok ([Int.tdiv x y], cin))
      args cin e ?_ h
    intro x y e1 h1
    simp only at h1
    split at h1
    · simp only [Except.error.injEq] at h1
      exact Or.inr (Or.inl h1.symm)
    · simp at h1
  · refine operation_faultsKnown 2 1 true percentFunc ?_
    intro args cin e h
    refine binary_error
      (fun x y cin => if y = 0 then .error .divByZero else .ok ([Int.tmod x y], cin))
      args cin e ?_ h
    intro x y e1 h1
    simp only at h1
    split at h1
    · simp only [Except.error.injEq] at h1
      exact Or.inr (Or.inl h1.symm)
    · simp at h1
  · refine operation_faultsKnown 1 1 true myabsFunc ?_
    intro args cin e h
    exact unary_error (fun x cin => .ok ([if x ≥ 0 then x else -x], cin)) args cin e
      (by intro x e1 h1; simp at h1) h
  · refine operation_faultsKnown 0 1 false inputFunc ?_
    intro args cin e h
    unfold inputFunc at h
    split at h
    · simp only [Except.error.injEq] at h
      exact Or.inr (Or.inr h.symm)
    · simp at h
  · refine operation_faultsKnown 1 2 true dublicateFunc ?_
    intro args cin e h
    exact unary_error (fun x cin => .ok ([x, x], cin)) args cin e
      (by intro x e1 h1; simp at h1) h

theorem applyOps_faultsKnown (ops : List Statement) (hops : ∀ c ∈ ops, c.FaultsKnown) :
    ∀ (st : Config) (e : Fault), applyOps ops st = .error e → e.ofApply := by
  induction ops with
  | nil => intro st e h; simp [applyOps] at h
  | cons c cs ih =>
    intro st e h
    simp only [applyOps] at h
    split at h
    · rename_i e1 h1
      simp only [Except.error.injEq] at h
      subst h
      exact hops c (List.mem_cons_self c cs) st e1 h1
    · exact ih (fun d hd => hops d (List.mem_cons_of_mem c hd)) _ e h

theorem resolve_faultsKnown (result : Combine) (buf : List Char) (out : Combine)
    (h : resolve result buf = .ok out) (hres : ∀ c ∈ result.ops, c.FaultsKnown) :
    ∀ c ∈ out.ops, c.FaultsKnown := by
  have step : ∀ d : Statement, d.FaultsKnown → ∀ c ∈ (result.append d).ops, c.FaultsKnown := by
    intro d hd c hc
    rw [Combine.append_ops] at hc
    simp only [List.mem_append, List.mem_singleton] at hc
    rcases hc with hc | hc
    · exact hres c hc
    · subst hc; exact hd
  rcases resolve_cases result buf out h with h1 | ⟨val, h1⟩ | ⟨op, hop, h1⟩
  · subst h1; exact hres
  · subst h1; exact step _ (constOp_faultsKnown val)
  · subst h1
    exact step _ (symbolMatch_faultsKnown (buf, op) (symbolLookup_mem buf op hop))

theorem compileLoop_faultsKnown (str : List Char) :
    ∀ (buf : List Char) (result out : Combine), compileLoop str buf result = .ok out →
      (∀ c ∈ result.ops, c.FaultsKnown) → ∀ c ∈ out.ops, c.FaultsKnown := by
  induction str with
  | nil =>
    intro buf result out h hres
    exact resolve_faultsKnown result buf out h hres
  | cons c str ih =>
    intro buf result out h hres
    simp only [compileLoop] at h
    split at h
    · exact ih _ _ _ h hres
    · split at h
      · simp at h
      · rename_i result1 h1
        exact ih _ _ _ h (resolve_faultsKnown result buf result1 h1 hres)

/-- The faults of `apply` of a compiled program are the out-of-bounds access, the
division by zero and the failed read. -/
theorem compile_faultsKnown (str : String) (P : Statement) (h : compile str = .ok P) :
    P.FaultsKnown := by
  unfold compile at h
  split at h
  · simp at h
  · rename_i result hloop
    simp only [Except.ok.injEq] at h
    subst h
    have hops := compileLoop_faultsKnown _ _ _ _ hloop (by intro c hc; simp [Combine.new] at hc)
    intro st e he
    rw [Combine.apply_toStatement] at he
    exact applyOps_faultsKnown result.ops hops st e he


/-! ## Stack effect of a compiled program -/

/-- C1: for a program `P` returned by `compile` and a stack `s` with at least
`P.arguments` elements, `apply` never reads outside the stack (no child runs short of
arguments), and whenever it returns, the returned stack has length
`L - arguments + results` and its bottom `L - arguments` elements are those of `s`. -/
theorem compile_apply_stack_effect (text : String) (P : Statement) (s cin : List Int)
    (hP : compile text = .ok P) (hL : P.get_arguments_count ≤ (s.length : Int)) :
    P.apply (s, cin) ≠ .error .outOfBounds ∧
    ∀ out cin1, P.apply (s, cin) = .ok (out, cin1) →
      (out.length : Int) = (s.length : Int) - P.get_arguments_count + P.get_results_count ∧
      out.take (s.length - P.get_arguments_count.toNat) =
        s.take (s.length - P.get_arguments_count.toNat) := by
  have hc := compile_conforms text P hP
  obtain ⟨base, t, hst, ht⟩ := split_top s P.get_arguments_count hc.args_nonneg hL
  subst hst
  refine ⟨hc.in_bounds base t cin ht, ?_⟩
  intro out cin1 hrun
  obtain ⟨t1, hout, ht1⟩ := hc.effect base t cin out cin1 ht hrun
  subst hout
  have hn : (base ++ t).length - P.get_arguments_count.toNat = base.length := by
    simp only [List.length_append]; omega
  constructor
  · simp only [List.length_append]; push_cast; omega
  · rw [hn, List.take_left, List.take_left]

/-- The stack effect of `compile("dup *")` on the stack `[3, 4]`. -/
theorem compile_apply_stack_effect_witness :
    (compile "dup *" = .ok (.combine 1 1 true [dublicate, mult]) ∧
      (Statement.combine 1 1 true [dublicate, mult]).get_arguments_count ≤
        (([3, 4] : List Int).length : Int)) ∧
    ((Statement.combine 1 1 true [dublicate, mult]).apply ([3, 4], []) ≠ .error .outOfBounds ∧
      ∀ out cin1, (Statement.combine 1 1 true [dublicate, mult]).apply ([3, 4], []) =
          .ok (out, cin1) →
        (out.length : Int) = (([3, 4] : List Int).length : Int) -
            (Statement.combine 1 1 true [dublicate, mult]).get_arguments_count +
            (Statement.combine 1 1 true [dublicate, mult]).get_results_count ∧
        out.take (([3, 4] : List Int).length -
            (Statement.combine 1 1 true [dublicate, mult]).get_arguments_count.toNat) =
          ([3, 4] : List Int).take (([3, 4] : List Int).length -
            (Statement.combine 1 1 true [dublicate, mult]).get_arguments_count.toNat)) :=
  ⟨⟨rfl, by decide⟩, compile_apply_stack_effect "dup *" _ [3, 4] [] rfl (by decide)⟩


/-! ## Concatenation with `operator|` -/

theorem foldl_push_back (l init : List Statement) :
    l.foldl (fun ops rhsOp => ops ++ [rhsOp]) init = init ++ l := by
  induction l generalizing init with
  | nil => simp
  | cons x l ih => simp [ih]

/-- `operator|` on two `Combine` objects keeps the contract of the left operand and
joins the child lists. -/
theorem pipe_toStatement (A B : Combine) :
    pipe A.toStatement B.toStatement =
      .ok (.combine A.arguments A.results A.pure (A.ops ++ B.ops)) := by
  simp [pipe, Combine.toStatement, Statement.asCombine, foldl_push_back]

/-- What `compile` returns is a `Combine`. -/
theorem compile_is_combine (text : String) (P : Statement) (h : compile text = .ok P) :
    ∃ c : Combine, P = c.toStatement := by
  unfold compile at h
  split at h
  · simp at h
  · rename_i result _
    simp only [Except.ok.injEq] at h
    exact ⟨result, h.symm⟩

/-- C2, the code at `compile("dup") | compile("*")`: `operator|` reports the pair
`(1, 2)` of its left operand, whereas replaying `append` for the children of the right
operand (as `compile("dup *")` does) gives `(1, 1)`. -/
theorem pipe_dup_mult_contract :
    (pipeE (compile "dup") (compile "*")).map Statement.contract = .ok (1, 2, true) ∧
    (compile "dup *").map Statement.contract = .ok (1, 1, true) := by
  decide

/-- The assertion `plus_4->apply({0}) == std::vector{4}` of `main`. -/
theorem plus_4_apply : run (pipeCopies (compile "1 +") 3) ([0], []) = .ok ([4], []) := by
  decide

/-- The pipeline `ten | sqr` of `main`. -/
theorem ten_sqr_pipeline :
    pipeE (pipeE (compile "6") (pipeCopies (compile "1 +") 3))
        (pipeE (compile "dup") (compile "*")) =
      .ok (.combine 0 1 true [.constOp 6, .constOp 1, plus, .constOp 1, plus, .constOp 1, plus,
        .constOp 1, plus, dublicate, mult]) := by
  rfl

/-- The assertion `apply_res == std::vector{100}` of `main`. -/
theorem ten_sqr_apply :
    run (pipeE (pipeE (compile "6") (pipeCopies (compile "1 +") 3))
        (pipeE (compile "dup") (compile "*"))) ([], []) = .ok ([100], []) := by
  rw [ten_sqr_pipeline]
  decide

/-- C3, the claim at one copy of `compile("1 +")` and `n = 2147483647`: the stack
`[2147483647]` is mapped to `[-2147483648]`, not to `[n + 1] = [2147483648]`. -/
theorem inc_max_wraps :
    run (pipeCopies (compile "1 +") 0) ([2147483647], []) = .ok ([-2147483648], []) ∧
    (2147483647 : Int) + 1 = 2147483648 := by
  decide

/-- C3 as amended: for pipelines `A`, `B` returned by `compile`, `A | B` exists and its
`apply` is `apply` of `A` followed by `apply` of `B`, a fault of either being the fault
of the whole; `k + 1` copies of `compile("1 +")` piped together map `[n]` to
`n + (k + 1)` reduced modulo `2^32` into the signed 32-bit range, which is
`[n + (k + 1)]` whenever `n + (k + 1)` is an `int`; four copies map `[0]` to `[4]`, and
`(compile("6") | plus_4 | (dup | *))` maps `[]` to `[100]`. -/
theorem pipe_apply_sequential :
    (∀ (textA textB : String) (A B : Statement),
      compile textA = .ok A → compile textB = .ok B →
      ∃ C, pipe A B = .ok C ∧ ∀ st, C.apply st = andThen (A.apply st) B.apply) ∧
    (∀ (k : Nat) (n : Int) (cin : List Int),
      run (pipeCopies (compile "1 +") k) ([n], cin) = .ok ([toInt32 (n + (k + 1))], cin) ∧
      (isInt32 (n + (k + 1)) →
        run (pipeCopies (compile "1 +") k) ([n], cin) = .ok ([n + (k + 1)], cin))) ∧
    run (pipeCopies (compile "1 +") 3) ([0], []) = .ok ([4], []) ∧
    run (pipeE (pipeE (compile "6") (pipeCopies (compile "1 +") 3))
        (pipeE (compile "dup") (compile "*"))) ([], []) = .ok ([100], []) := by
  refine ⟨?_, ?_, plus_4_apply, ten_sqr_apply⟩
  · intro textA textB A B hA hB
    obtain ⟨a, rfl⟩ := compile_is_combine textA A hA
    obtain ⟨b, rfl⟩ := compile_is_combine textB B hB
    refine ⟨_, pipe_toStatement a b, ?_⟩
    intro st
    simp only [Statement.apply, Combine.toStatement, applyOps_append, andThen]
  · have hinc : compile "1 +" = .ok (.combine 1 1 true [.constOp 1, plus]) := rfl
    have hcopies : ∀ k : Nat, ∃ ops : List Statement,
        pipeCopies (compile "1 +") k = .ok (.combine 1 1 true ops) ∧
        ∀ (n : Int) (cin : List Int),
          applyOps ops ([n], cin) = .ok ([toInt32 (n + (k + 1))], cin) := by
      intro k
      induction k with
      | zero =>
        refine ⟨[.constOp 1, plus], hinc, ?_⟩
        intro n cin
        have h := Operation.apply_append 2 1 plusFunc [] [n, 1] cin rfl
        simp only [applyOps, Statement.apply, plus]
        simp only [List.nil_append, Nat.cast_ofNat, Nat.cast_one] at h
        simp only [List.singleton_append, h, plusFunc, index_pair_zero, index_pair_one]
        simp [pushResults, index]
      | succ k ih =>
        obtain ⟨ops, hops, hrun⟩ := ih
        refine ⟨ops ++ [.constOp 1, plus], ?_, ?_⟩
        · simp only [pipeCopies]
          rw [hops, hinc]
          exact pipe_toStatement ⟨1, 1, true, ops⟩ ⟨1, 1, true, [.constOp 1, plus]⟩
        · intro n cin
          rw [applyOps_append, hrun n cin]
          have h := Operation.apply_append 2 1 plusFunc [] [toInt32 (n + (k + 1)), 1] cin rfl
          simp only [applyOps, Statement.apply, plus]
          simp only [List.nil_append, Nat.cast_ofNat, Nat.cast_one] at h
          simp only [List.singleton_append, h, plusFunc, index_pair_zero, index_pair_one]
          simp only [pushResults, index]
          simp only [toInt32]
          push_cast
          simp
          omega
    intro k n cin
    obtain ⟨ops, hops, hrun⟩ := hcopies k
    have h1 : run (pipeCopies (compile "1 +") k) ([n], cin) =
        .ok ([toInt32 (n + (k + 1))], cin) := by
      rw [hops]
      simp only [run, Statement.apply]
      exact hrun n cin
    refine ⟨h1, ?_⟩
    intro hr
    rw [h1]
    have : toInt32 (n + (k + 1)) = n + (k + 1) := by
      unfold isInt32 at hr
      unfold toInt32
      omega
    rw [this]

/-- The composition law at `compile("6") | compile("1 +")`. -/
theorem pipe_apply_sequential_witness :
    (compile "6" = .ok (.combine 0 1 true [.constOp 6]) ∧
      compile "1 +" = .ok (.combine 1 1 true [.constOp 1, plus])) ∧
    ∃ C, pipe (.combine 0 1 true [.constOp 6]) (.combine 1 1 true [.constOp 1, plus]) = .ok C ∧
      ∀ st, C.apply st =
        andThen ((Statement.combine 0 1 true [.constOp 6]).apply st)
          (Statement.combine 1 1 true [.constOp 1, plus]).apply :=
  ⟨⟨rfl, rfl⟩, pipe_apply_sequential.1 "6" "1 +" _ _ rfl rfl⟩


/-- C4: concatenation is associative. For pipelines `A`, `B`, `C` returned by `compile`
both `(A | B) | C` and `A | (B | C)` exist, report the same `(arguments, results)` pair
and return the same result from `apply` on every stack and input; and `compile("6")`
piped with four copies of `compile("1 +")` has arity `(0, 1)` and maps `[]` to `[10]`. -/
theorem pipe_assoc :
    (∀ (textA textB textC : String) (A B C : Statement),
      compile textA = .ok A → compile textB = .ok B → compile textC = .ok C →
      ∃ L R, pipeE (pipe A B) (.ok C) = .ok L ∧ pipeE (.ok A) (pipe B C) = .ok R ∧
        L.get_arguments_count = R.get_arguments_count ∧
        L.get_results_count = R.get_results_count ∧
        ∀ st, L.apply st = R.apply st) ∧
    (pipeE (compile "6") (pipeCopies (compile "1 +") 3)).map Statement.contract =
      .ok (0, 1, true) ∧
    run (pipeE (compile "6") (pipeCopies (compile "1 +") 3)) ([], []) = .ok ([10], []) := by
  refine ⟨?_, by decide, by decide⟩
  intro textA textB textC A B C hA hB hC
  obtain ⟨a, rfl⟩ := compile_is_combine textA A hA
  obtain ⟨b, rfl⟩ := compile_is_combine textB B hB
  obtain ⟨c, rfl⟩ := compile_is_combine textC C hC
  have hL : pipeE (pipe a.toStatement b.toStatement) (.ok c.toStatement) =
      .ok (.combine a.arguments a.results a.pure (a.ops ++ b.ops ++ c.ops)) := by
    rw [pipe_toStatement]
    exact pipe_toStatement ⟨a.arguments, a.results, a.pure, a.ops ++ b.ops⟩ c
  have hR : pipeE (.ok a.toStatement) (pipe b.toStatement c.toStatement) =
      .ok (.combine a.arguments a.results a.pure (a.ops ++ (b.ops ++ c.ops))) := by
    rw [pipe_toStatement]
    exact pipe_toStatement a ⟨b.arguments, b.results, b.pure, b.ops ++ c.ops⟩
  refine ⟨_, _, hL, hR, rfl, rfl, ?_⟩
  intro st
  rw [List.append_assoc]

/-- Associativity at `compile("6")`, `compile("dup")`, `compile("*")`. -/
theorem pipe_assoc_witness :
    (compile "6" = .ok (.combine 0 1 true [.constOp 6]) ∧
      compile "dup" = .ok (.combine 1 2 true [dublicate]) ∧
      compile "*" = .ok (.combine 2 1 true [mult])) ∧
    ∃ L R,
      pipeE (pipe (.combine 0 1 true [.constOp 6]) (.combine 1 2 true [dublicate]))
        (.ok (.combine 2 1 true [mult])) = .ok L ∧
      pipeE (.ok (.combine 0 1 true [.constOp 6]))
        (pipe (.combine 1 2 true [dublicate]) (.combine 2 1 true [mult])) = .ok R ∧
      L.get_arguments_count = R.get_arguments_count ∧
      L.get_results_count = R.get_results_count ∧
      ∀ st, L.apply st = R.apply st :=
  ⟨⟨rfl, rfl, rfl⟩, pipe_assoc.1 "6" "dup" "*" _ _ _ rfl rfl rfl⟩

/-- C5, the code at `compile("1") | compile("input")`: the pipeline reports
`is_pure() == true` although its second child, `input`, is not pure; `operator|` keeps
the flag of the left operand, whereas `compile("1 input")` reports `false`. -/
theorem pipe_literal_input_pure :
    (pipeE (compile "1") (compile "input")).map
        (fun P => (P.is_pure, P.ops.map Statement.is_pure)) = .ok (true, [true, false]) ∧
    (compile "1 input").map
        (fun P => (P.is_pure, P.ops.map Statement.is_pure)) = .ok (false, [true, false]) := by
  decide


/-! ## Tokens and integer literals -/

/-- While no space is met, the loops of `compile` only extend `buf`. -/
theorem compileLoop_token (t : List Char) :
    ∀ (buf : List Char) (result : Combine), (∀ c ∈ t, c ≠ ' ') →
      compileLoop t buf result = resolve result (buf ++ t) := by
  induction t with
  | nil => intro buf result _; simp [compileLoop]
  | cons c t ih =>
    intro buf result h
    have hc : c ≠ ' ' := h c (List.mem_cons_self c t)
    have ht : ∀ d ∈ t, d ≠ ' ' := fun d hd => h d (List.mem_cons_of_mem c hd)
    simp only [compileLoop, if_pos hc]
    rw [ih (buf ++ [c]) result ht]
    simp

theorem digitChar_isDigit (d : Nat) (h : d < 10) :
    (Nat.digitChar d).isDigit = true ∧ (Nat.digitChar d).toNat - 48 = d := by
  interval_cases d <;> exact ⟨rfl, rfl⟩

theorem digitsValue_concat (pre : List Char) (c : Char) :
    digitsValue (pre ++ [c]) = 10 * digitsValue pre + (c.toNat - 48) := by
  simp [digitsValue, List.foldl_append]

/-- The digits that `Nat.toDigitsCore` puts in front of `ds`: a non-empty string of
decimal digits whose value is `n`. -/
theorem toDigitsCore_spec (fuel : Nat) :
    ∀ (n : Nat) (ds : List Char), n < fuel →
      ∃ pre : List Char, Nat.toDigitsCore 10 fuel n ds = pre ++ ds ∧ pre ≠ [] ∧
        (∀ c ∈ pre, c.isDigit = true) ∧ digitsValue pre = n := by
  induction fuel with
  | zero => intro n ds h; omega
  | succ fuel ih =>
    intro n ds h
    have hd := digitChar_isDigit (n % 10) (Nat.mod_lt n (by decide))
    simp only [Nat.toDigitsCore]
    by_cases h0 : n / 10 = 0
    · rw [if_pos h0]
      refine ⟨[Nat.digitChar (n % 10)], rfl, by simp, ?_, ?_⟩
      · intro c hc
        simp only [List.mem_singleton] at hc
        subst hc
        exact hd.1
      · have := digitsValue_concat [] (Nat.digitChar (n % 10))
        simp only [List.nil_append] at this
        rw [this, hd.2]
        simp only [digitsValue, List.foldl_nil]
        omega
    · rw [if_neg h0]
      have hlt : n / 10 < fuel := by omega
      obtain ⟨pre, hpre, hne, hdig, hval⟩ := ih (n / 10) (Nat.digitChar (n % 10) :: ds) hlt
      refine ⟨pre ++ [Nat.digitChar (n % 10)], ?_, by simp, ?_, ?_⟩
      · rw [hpre]; simp
      · intro c hc
        simp only [List.mem_append, List.mem_singleton] at hc
        rcases hc with hc | hc
        · exact hdig c hc
        · subst hc; exact hd.1
      · rw [digitsValue_concat, hval, hd.2]
        omega

theorem toDigits_spec (n : Nat) :
    Nat.toDigits 10 n ≠ [] ∧ (∀ c ∈ Nat.toDigits 10 n, c.isDigit = true) ∧
      digitsValue (Nat.toDigits 10 n) = n := by
  obtain ⟨pre, hpre, hne, hdig, hval⟩ := toDigitsCore_spec (n + 1) n [] (by omega)
  simp only [List.append_nil] at hpre
  unfold Nat.toDigits
  rw [hpre]
  exact ⟨hne, hdig, hval⟩

theorem isDigit_ne (c : Char) (h : c.isDigit = true) : c ≠ ' ' ∧ c ≠ '+' ∧ c ≠ '-' := by
  refine ⟨?_, ?_, ?_⟩ <;> (intro hc; subst hc; revert h; decide)

/-- `constantRegex` on a string of digits with an optional sign in front. -/
theorem constantRegex_digits (ds : List Char) (hne : ds ≠ [])
    (hdig : ∀ c ∈ ds, c.isDigit = true) :
    constantRegex ds = some ([], ds) ∧ constantRegex ('+' :: ds) = some (['+'], ds) ∧
      constantRegex ('-' :: ds) = some (['-'], ds) := by
  have hall : ds.all Char.isDigit = true := by
    simp only [List.all_eq_true]; exact hdig
  refine ⟨?_, ?_, ?_⟩
  · cases ds with
    | nil => exact absurd rfl hne
    | cons c cs =>
      have hc := isDigit_ne c (hdig c (List.mem_cons_self c cs))
      unfold constantRegex
      split
      · rename_i heq; simp only [List.cons.injEq] at heq; exact absurd heq.1 hc.2.1
      · rename_i heq; simp only [List.cons.injEq] at heq; exact absurd heq.1 hc.2.2
      · simp [hall]
  · simp [constantRegex, hne, hall]
  · simp [constantRegex, hne, hall]

/-- The three literal programs `n`, `+n`, `-n` for a digit string of value at most
`2147483647`. -/
theorem compileLoop_literal (ds : List Char) (hne : ds ≠ [])
    (hdig : ∀ c ∈ ds, c.isDigit = true) (hval : digitsValue ds ≤ 2147483647) :
    compileLoop ds [] (Combine.new []) =
        .ok ⟨0, 1, true, [.constOp (digitsValue ds : Int)]⟩ ∧
      compileLoop ('+' :: ds) [] (Combine.new []) =
        .ok ⟨0, 1, true, [.constOp (digitsValue ds : Int)]⟩ ∧
      compileLoop ('-' :: ds) [] (Combine.new []) =
        .ok ⟨0, 1, true, [.constOp (-(digitsValue ds : Int))]⟩ := by
  have hsp : ∀ c ∈ ds, c ≠ ' ' := fun c hc => (isDigit_ne c (hdig c hc)).1
  obtain ⟨h1, h2, h3⟩ := constantRegex_digits ds hne hdig
  have hstoi : stoi ds = .ok (digitsValue ds : Int) := by
    unfold stoi
    rw [if_neg (by omega)]
  refine ⟨?_, ?_, ?_⟩
  · rw [compileLoop_token ds [] _ hsp]
    simp only [List.nil_append, resolve, if_neg hne, h1, hstoi]
    simp [Combine.append, Combine.new, Statement.get_arguments_count,
      Statement.get_results_count, Statement.is_pure]
  · have hsp2 : ∀ c ∈ '+' :: ds, c ≠ ' ' := by
      intro c hc
      simp only [List.mem_cons] at hc
      rcases hc with hc | hc
      · subst hc; decide
      · exact hsp c hc
    rw [compileLoop_token ('+' :: ds) [] _ hsp2]
    simp only [List.nil_append, resolve, h2, hstoi]
    simp [Combine.append, Combine.new, Statement.get_arguments_count,
      Statement.get_results_count, Statement.is_pure]
  · have hsp2 : ∀ c ∈ '-' :: ds, c ≠ ' ' := by
      intro c hc
      simp only [List.mem_cons] at hc
      rcases hc with hc | hc
      · subst hc; decide
      · exact hsp c hc
    rw [compileLoop_token ('-' :: ds) [] _ hsp2]
    simp only [List.nil_append, resolve, h3, hstoi]
    simp [Combine.append, Combine.new, Statement.get_arguments_count,
      Statement.get_results_count, Statement.is_pure]

/-- C6: for every natural number `n ≤ 2147483647`, with `toString n` its decimal
notation: the programs `n`, `+n` and `-n` compile to a pure pipeline of arity `(0, 1)`
that maps the empty stack to `[n]`, `[n]` and `[-n]`. -/
theorem compile_literal (n : Nat) (cin : List Int) (h : n ≤ 2147483647) :
    ((compile (toString n)).map Statement.contract = .ok (0, 1, true) ∧
      run (compile (toString n)) ([], cin) = .ok ([(n : Int)], cin)) ∧
    ((compile ("+" ++ toString n)).map Statement.contract = .ok (0, 1, true) ∧
      run (compile ("+" ++ toString n)) ([], cin) = .ok ([(n : Int)], cin)) ∧
    ((compile ("-" ++ toString n)).map Statement.contract = .ok (0, 1, true) ∧
      run (compile ("-" ++ toString n)) ([], cin) = .ok ([-(n : Int)], cin)) := by
  obtain ⟨hne, hdig, hval⟩ := toDigits_spec n
  obtain ⟨h1, h2, h3⟩ := compileLoop_literal (Nat.toDigits 10 n) hne hdig (by omega)
  rw [hval] at h1 h2 h3
  have e1 : (toString n).toList = Nat.toDigits 10 n := rfl
  have e2 : ("+" ++ toString n).toList = '+' :: Nat.toDigits 10 n := rfl
  have e3 : ("-" ++ toString n).toList = '-' :: Nat.toDigits 10 n := rfl
  have c1 : compile (toString n) = .ok (.combine 0 1 true [.constOp (n : Int)]) := by
    unfold compile; rw [e1, h1]; rfl
  have c2 : compile ("+" ++ toString n) = .ok (.combine 0 1 true [.constOp (n : Int)]) := by
    unfold compile; rw [e2, h2]; rfl
  have c3 : compile ("-" ++ toString n) = .ok (.combine 0 1 true [.constOp (-(n : Int))]) := by
    unfold compile; rw [e3, h3]; rfl
  rw [c1, c2, c3]
  refine ⟨⟨rfl, rfl⟩, ⟨rfl, rfl⟩, ⟨rfl, rfl⟩⟩

/-- The literal programs `999`, `+999`, `-999`. -/
theorem compile_literal_witness :
    (999 : Nat) ≤ 2147483647 ∧
    (((compile (toString 999)).map Statement.contract = .ok (0, 1, true) ∧
      run (compile (toString 999)) ([], []) = .ok ([((999 : Nat) : Int)], [])) ∧
    ((compile ("+" ++ toString 999)).map Statement.contract = .ok (0, 1, true) ∧
      run (compile ("+" ++ toString 999)) ([], []) = .ok ([((999 : Nat) : Int)], [])) ∧
    ((compile ("-" ++ toString 999)).map Statement.contract = .ok (0, 1, true) ∧
      run (compile ("-" ++ toString 999)) ([], []) = .ok ([-((999 : Nat) : Int)], []))) :=
  ⟨by decide, compile_literal 999 [] (by decide)⟩


/-! ## The built-in operations -/

/-- C7: a program that is a single built-in mnemonic compiles to a pipeline whose
`(arguments, results, pure)` is the entry of the catalog: `+ - * / %` are
`(2, 1, pure)`, `abs` is `(1, 1, pure)`, `dup` is `(1, 2, pure)`, `input` is
`(0, 1, not pure)`. -/
theorem compile_mnemonic_contract :
    (compile "+").map Statement.contract = .ok (2, 1, true) ∧
    (compile "-").map Statement.contract = .ok (2, 1, true) ∧
    (compile "*").map Statement.contract = .ok (2, 1, true) ∧
    (compile "/").map Statement.contract = .ok (2, 1, true) ∧
    (compile "%").map Statement.contract = .ok (2, 1, true) ∧
    (compile "abs").map Statement.contract = .ok (1, 1, true) ∧
    (compile "dup").map Statement.contract = .ok (1, 2, true) ∧
    (compile "input").map Statement.contract = .ok (0, 1, false) := by
  decide

/-- A compiled single operation runs as `Operation::apply` of that operation. -/
theorem run_single (a r : Nat) (p : Bool) (func : Func) (A R : Int) (P : Bool)
    (s t cin : List Int) (ht : t.length = a) :
    run (.ok (.combine A R P [.operation (a : Int) (r : Int) p func])) (s ++ t, cin) =
      match func t cin with
      | .error e => .error e
      | .ok (result, cin1) =>
        match pushResults result 0 r s with
        | .error e => .error e
        | .ok out => .ok (out, cin1) := by
  simp only [run, Statement.apply]
  rw [applyOps_singleton]
  simp only [Statement.apply]
  exact Operation.apply_append a r func s t cin ht

/-- C8: a primitive takes its arguments from the top of the stack, oldest first, and
leaves what is below untouched: `+`, `-`, `*` map `s ++ [a, b]` to `s` followed by
`a + b`, `a - b`, `a * b` taken as a 32-bit `int`, and `dup` maps `s ++ [x]`, `x` an
`int`, to `s ++ [x, x]`; `-` maps `[1, 2, 3]` to `[1, -1]`. -/
theorem primitive_apply (s cin : List Int) (a b x : Int) (hx : isInt32 x) :
    run (compile "+") (s ++ [a, b], cin) = .ok (s ++ [toInt32 (a + b)], cin) ∧
    run (compile "-") (s ++ [a, b], cin) = .ok (s ++ [toInt32 (a - b)], cin) ∧
    run (compile "*") (s ++ [a, b], cin) = .ok (s ++ [toInt32 (a * b)], cin) ∧
    run (compile "dup") (s ++ [x], cin) = .ok (s ++ [x, x], cin) ∧
    run (compile "-") ([1, 2, 3], []) = .ok ([1, -1], []) := by
  have hplus : compile "+" = .ok (.combine 2 1 true [plus]) := rfl
  have hminus : compile "-" = .ok (.combine 2 1 true [minus]) := rfl
  have hmult : compile "*" = .ok (.combine 2 1 true [mult]) := rfl
  have hdup : compile "dup" = .ok (.combine 1 2 true [dublicate]) := rfl
  have hxx : toInt32 x = x := by
    unfold isInt32 at hx
    unfold toInt32
    omega
  refine ⟨?_, ?_, ?_, ?_, by decide⟩
  · rw [hplus]
    have h := run_single 2 1 true plusFunc 2 1 true s [a, b] cin rfl
    simp only [Nat.cast_ofNat, Nat.cast_one] at h
    simp only [plus, h, plusFunc, index_pair_zero, index_pair_one]
    simp [pushResults, index]
  · rw [hminus]
    have h := run_single 2 1 true minusFunc 2 1 true s [a, b] cin rfl
    simp only [Nat.cast_ofNat, Nat.cast_one] at h
    simp only [minus, h, minusFunc, index_pair_zero, index_pair_one]
    simp [pushResults, index]
  · rw [hmult]
    have h := run_single 2 1 true multFunc 2 1 true s [a, b] cin rfl
    simp only [Nat.cast_ofNat, Nat.cast_one] at h
    simp only [mult, h, multFunc, index_pair_zero, index_pair_one]
    simp [pushResults, index]
  · rw [hdup]
    have h := run_single 1 2 true dublicateFunc 1 2 true s [x] cin rfl
    simp only [Nat.cast_ofNat, Nat.cast_one] at h
    simp only [dublicate, h, dublicateFunc, index_single_zero]
    simp [pushResults, index, hxx]

/-- The primitives on the stacks `[5, 2, 3]` and `[5, 7]`. -/
theorem primitive_apply_witness :
    isInt32 7 ∧
    (run (compile "+") ([5] ++ [2, 3], []) = .ok ([5] ++ [toInt32 (2 + 3)], []) ∧
    run (compile "-") ([5] ++ [2, 3], []) = .ok ([5] ++ [toInt32 (2 - 3)], []) ∧
    run (compile "*") ([5] ++ [2, 3], []) = .ok ([5] ++ [toInt32 (2 * 3)], []) ∧
    run (compile "dup") ([5] ++ [7], []) = .ok ([5] ++ [7, 7], []) ∧
    run (compile "-") ([1, 2, 3], []) = .ok ([1, -1], [])) :=
  ⟨by decide, primitive_apply [5] [] 2 3 7 (by decide)⟩

/-! ## Runs that leave defined behaviour -/

/-- C9, the claim at `compile("+").apply([1])`: the run reads `in[idx]` with a negative
`idx`; this is an out-of-bounds access, not an exception. -/
theorem plus_short_stack_out_of_bounds :
    run (compile "+") ([1], []) = .error .outOfBounds ∧
    Fault.isException .outOfBounds = false := by
  decide

/-- C9 as amended: for a program `P` returned by `compile` and a stack shorter than
`P.arguments`, no exception is raised; the run of `apply` leaves defined behaviour, at
the out-of-bounds read `in[idx]` of some `Operation::apply` or, before it, at a division
by zero or a failed read. For a built-in operation on a stack shorter than its arity,
alone or as a compiled one-token program, it is the out-of-bounds read. -/
theorem short_stack_faults :
    (∀ (text : String) (P : Statement) (s cin : List Int), compile text = .ok P →
      (s.length : Int) < P.get_arguments_count →
      P.apply (s, cin) = .error .outOfBounds ∨ P.apply (s, cin) = .error .divByZero ∨
        P.apply (s, cin) = .error .inputFailed) ∧
    (∀ entry ∈ symbolMatch, ∀ (s cin : List Int),
      (s.length : Int) < entry.2.get_arguments_count →
      entry.2.apply (s, cin) = .error .outOfBounds ∧
      run (compile (String.mk entry.1)) (s, cin) = .error .outOfBounds) := by
  constructor
  · intro text P s cin hP hs
    have hc := compile_conforms text P hP
    obtain ⟨e, he⟩ := hc.short s cin hs
    rcases compile_faultsKnown text P hP (s, cin) e he with h | h | h <;> subst h
    · exact Or.inl he
    · exact Or.inr (Or.inl he)
    · exact Or.inr (Or.inr he)
  · intro entry h s cin hs
    simp only [symbolMatch, List.mem_cons, List.mem_singleton, List.not_mem_nil, or_false] at h
    have key : ∀ (a r : Int) (p : Bool) (func : Func) (text : String),
        compile text = .ok (.combine a r p [.operation a r p func]) →
        (s.length : Int) < a →
        (Statement.operation a r p func).apply (s, cin) = .error .outOfBounds ∧
        run (compile text) (s, cin) = .error .outOfBounds := by
      intro a r p func text htext hlt
      have h1 : (Statement.operation a r p func).apply (s, cin) = .error .outOfBounds := by
        simp only [Statement.apply]
        exact Operation.apply_short a r func s cin hlt
      refine ⟨h1, ?_⟩
      rw [htext]
      simp only [run, Statement.apply]
      rw [applyOps_singleton]
      exact h1
    rcases h with h | h | h | h | h | h | h | h <;> subst h
    · exact key 2 1 true _ "+" rfl hs
    · exact key 2 1 true _ "-" rfl hs
    · exact key 2 1 true _ "*" rfl hs
    · exact key 2 1 true _ "/" rfl hs
    · exact key 2 1 true _ "%" rfl hs
    · exact key 1 1 true _ "abs" rfl hs
    · exact key 0 1 false _ "input" rfl hs
    · exact key 1 2 true _ "dup" rfl hs

/-- The program `compile("1 +")` on the empty stack. -/
theorem short_stack_faults_witness :
    (compile "1 +" = .ok (.combine 1 1 true [.constOp 1, plus]) ∧
      ((([] : List Int).length : Int) <
        (Statement.combine 1 1 true [.constOp 1, plus]).get_arguments_count)) ∧
    ((Statement.combine 1 1 true [.constOp 1, plus]).apply ([], []) = .error .outOfBounds ∨
      (Statement.combine 1 1 true [.constOp 1, plus]).apply ([], []) = .error .divByZero ∨
      (Statement.combine 1 1 true [.constOp 1, plus]).apply ([], []) = .error .inputFailed) :=
  ⟨⟨rfl, by decide⟩, short_stack_faults.1 "1 +" _ [] [] rfl (by decide)⟩

/-- C10, the claim at `compile("/").apply([1, 0])` and `compile("%").apply([1, 0])`: the
run executes the division by zero, which is undefined behaviour, not an exception. -/
theorem divide_by_zero_undefined :
    run (compile "/") ([1, 0], []) = .error .divByZero ∧
    run (compile "%") ([1, 0], []) = .error .divByZero ∧
    Fault.isException .divByZero = false := by
  decide

/-- C10 as amended: for every stack `s` and integer `a`, `/` and `%` applied to
`s ++ [a, 0]` never return a stack; the run executes the division by zero of `int64_t`
(undefined behaviour) and no exception is thrown. -/
theorem division_by_zero_faults (s cin : List Int) (a : Int) :
    run (compile "/") (s ++ [a, 0], cin) = .error .divByZero ∧
    run (compile "%") (s ++ [a, 0], cin) = .error .divByZero ∧
    Fault.isException .divByZero = false := by
  have hdiv : compile "/" = .ok (.combine 2 1 true [divide]) := rfl
  have hmod : compile "%" = .ok (.combine 2 1 true [percent]) := rfl
  refine ⟨?_, ?_, rfl⟩
  · rw [hdiv]
    have h := run_single 2 1 true divideFunc 2 1 true s [a, 0] cin rfl
    simp only [Nat.cast_ofNat, Nat.cast_one] at h
    simp only [divide, h, divideFunc, index_pair_zero, index_pair_one]
    simp
  · rw [hmod]
    have h := run_single 2 1 true percentFunc 2 1 true s [a, 0] cin rfl
    simp only [Nat.cast_ofNat, Nat.cast_one] at h
    simp only [percent, h, percentFunc, index_pair_zero, index_pair_one]
    simp


/-! ## The tokenizer of `compile` -/

theorem resolve_nil (result : Combine) : resolve result [] = .ok result := by
  simp [resolve]

/-- A space after a token without spaces ends the token: the body of the loop resolves
it and the scan goes on with an empty `buf`. -/
theorem compileLoop_sep (t : List Char) :
    ∀ (rest buf : List Char) (result : Combine), (∀ c ∈ t, c ≠ ' ') →
      compileLoop (t ++ ' ' :: rest) buf result =
        match resolve result (buf ++ t) with
        | .error e => .error e
        | .ok result1 => compileLoop rest [] result1 := by
  induction t with
  | nil => intro rest buf result _; simp [compileLoop]
  | cons c t ih =>
    intro rest buf result h
    have hc : c ≠ ' ' := h c (List.mem_cons_self c t)
    have ht : ∀ d ∈ t, d ≠ ' ' := fun d hd => h d (List.mem_cons_of_mem c hd)
    have hstep := ih rest (buf ++ [c]) result ht
    simp only [List.append_assoc, List.singleton_append] at hstep
    rw [List.cons_append]
    simp only [compileLoop, if_pos hc]
    exact hstep

/-- Spaces met with an empty `buf` are stepped over. -/
theorem compileLoop_spaces (k : Nat) (rest : List Char) (result : Combine) :
    compileLoop (List.replicate k ' ' ++ rest) [] result = compileLoop rest [] result := by
  induction k with
  | zero => simp
  | succ k ih =>
    simp only [List.replicate_succ, List.cons_append, compileLoop, ne_eq, not_true_eq_false,
      if_false, resolve_nil]
    exact ih

/-- A token followed only by spaces up to the end of the text is resolved once. -/
theorem compileLoop_last (t : List Char) (k : Nat) (result : Combine)
    (h : ∀ c ∈ t, c ≠ ' ') :
    compileLoop (t ++ List.replicate k ' ') [] result = resolve result t := by
  cases k with
  | zero =>
    simp only [List.replicate_zero, List.append_nil]
    rw [compileLoop_token t [] result h, List.nil_append]
  | succ k =>
    rw [List.replicate_succ, compileLoop_sep t _ [] result h, List.nil_append]
    cases resolve result t with
    | error e => rfl
    | ok result1 =>
      have := compileLoop_spaces k [] result1
      simp only [List.append_nil] at this
      simp only [this, compileLoop, resolve_nil]

theorem resolveAll_singleton (result : Combine) (t : List Char) :
    resolveAll result [t] = resolve result t := by
  simp only [resolveAll]
  cases resolve result t <;> rfl

/-- On tokens without spaces joined by single spaces, `compile` runs the body of its
loop once for each token. -/
theorem compileLoop_spaceJoin (tokens : List (List Char)) :
    ∀ (result : Combine), (∀ t ∈ tokens, ∀ c ∈ t, c ≠ ' ') →
      compileLoop (spaceJoin tokens) [] result = resolveAll result tokens := by
  induction tokens with
  | nil => intro result _; simp [spaceJoin, compileLoop, resolveAll, resolve_nil]
  | cons t ts ih =>
    intro result h
    have ht : ∀ c ∈ t, c ≠ ' ' := h t (List.mem_cons_self t ts)
    have hts : ∀ u ∈ ts, ∀ c ∈ u, c ≠ ' ' := fun u hu => h u (List.mem_cons_of_mem t hu)
    cases ts with
    | nil =>
      rw [resolveAll_singleton]
      simp only [spaceJoin]
      rw [compileLoop_token t [] result ht, List.nil_append]
    | cons u us =>
      simp only [spaceJoin]
      rw [compileLoop_sep t _ [] result ht, List.nil_append]
      simp only [resolveAll]
      cases resolve result t with
      | error e => rfl
      | ok result1 =>
        have := ih result1 hts
        simp only [spaceJoin] at this
        simp only [this, resolveAll]

/-- Padding does not change what the loop of `compile` does. -/
theorem compileLoop_padJoin (trail : Nat) (toks : List (List Char × Nat)) :
    ∀ (result : Combine), (∀ p ∈ toks, ∀ c ∈ p.1, c ≠ ' ') →
      compileLoop (padJoin trail toks) [] result =
        resolveAll result (toks.map Prod.fst) := by
  induction toks with
  | nil =>
    intro result _
    have := compileLoop_spaces trail [] result
    simp only [List.append_nil] at this
    simp [padJoin, this, compileLoop, resolveAll, resolve_nil]
  | cons p ps ih =>
    intro result h
    obtain ⟨t, gap⟩ := p
    have ht : ∀ c ∈ t, c ≠ ' ' := h (t, gap) (List.mem_cons_self _ ps)
    have hps : ∀ q ∈ ps, ∀ c ∈ q.1, c ≠ ' ' := fun q hq => h q (List.mem_cons_of_mem _ hq)
    cases ps with
    | nil =>
      simp only [padJoin, List.map_cons, List.map_nil]
      rw [resolveAll_singleton, compileLoop_last t trail result ht]
    | cons q qs =>
      simp only [padJoin, List.map_cons]
      rw [List.replicate_succ, List.append_assoc, List.cons_append,
        compileLoop_sep t _ [] result ht, List.nil_append]
      simp only [resolveAll]
      cases resolve result t with
      | error e => rfl
      | ok result1 =>
        simp only
        rw [compileLoop_spaces]
        have := ih result1 hps
        simp only [List.map_cons] at this
        simp only [resolveAll] at this
        exact this

/-- A token that is neither a literal nor a key of `symbolMatch` leaves `result` as it
is. -/
theorem resolve_unrecognized (result : Combine) (t : List Char) (h : recognized t = false) :
    resolve result t = .ok result := by
  simp only [recognized, Bool.or_eq_false_iff] at h
  have h1 : constantRegex t = none := by
    cases hc : constantRegex t with
    | none => rfl
    | some v => rw [hc] at h; simp at h
  have h2 : symbolLookup t = none := by
    cases hc : symbolLookup t with
    | none => rfl
    | some v => rw [hc] at h; simp at h
  unfold resolve
  split
  · rfl
  · rw [h1, h2]

theorem resolveAll_filter (tokens : List (List Char)) :
    ∀ (result : Combine), resolveAll result (tokens.filter recognized) =
      resolveAll result tokens := by
  induction tokens with
  | nil => intro result; rfl
  | cons t ts ih =>
    intro result
    cases hrec : recognized t with
    | true =>
      rw [List.filter_cons_of_pos hrec]
      simp only [resolveAll]
      cases resolve result t with
      | error e => rfl
      | ok result1 => exact ih result1
    | false =>
      rw [List.filter_cons_of_neg (by simp [hrec])]
      simp only [resolveAll, resolve_unrecognized result t hrec]
      exact ih result

/-- The only fault of the body of the loop is the `std::out_of_range` of `std::stoi`. -/
theorem resolve_error (result : Combine) (t : List Char) (e : Fault)
    (h : resolve result t = .error e) : e = .out_of_range := by
  unfold resolve at h
  split at h
  · simp at h
  · split at h
    · rename_i numMatch _
      split at h
      · rename_i e1 hst
        simp only [Except.error.injEq] at h
        subst h
        unfold stoi at hst
        split at hst
        · simp only [Except.error.injEq] at hst; exact hst.symm
        · simp at hst
      · simp at h
    · split at h <;> simp at h

theorem resolveAll_error (tokens : List (List Char)) :
    ∀ (result : Combine) (e : Fault), resolveAll result tokens = .error e →
      e = .out_of_range := by
  induction tokens with
  | nil => intro result e h; simp [resolveAll] at h
  | cons t ts ih =>
    intro result e h
    simp only [resolveAll] at h
    cases hr : resolve result t with
    | error e1 =>
      rw [hr] at h
      simp only [Except.error.injEq] at h
      subst h
      exact resolve_error result t e1 hr
    | ok result1 =>
      rw [hr] at h
      exact ih result1 e h


/-! ## Programs made of spaces, unknown tokens and padding -/

/-- C11: the empty text, and any text made only of spaces, compiles to the pipeline
with arity `(0, 0)`, pure, without children, and its `apply` returns the stack (and the
input) it was given; in particular `compile("")` maps `[]` to `[]`. -/
theorem compile_spaces (text : String) (h : ∀ c ∈ text.toList, c = ' ') :
    compile text = .ok (.combine 0 0 true []) ∧
    (compile text).map Statement.contract = .ok (0, 0, true) ∧
    (compile text).map Statement.ops = .ok [] ∧
    (∀ st, run (compile text) st = .ok st) ∧
    compile "" = .ok (.combine 0 0 true []) ∧
    run (compile "") ([], []) = .ok ([], []) := by
  have hrep : text.toList = List.replicate text.toList.length ' ' :=
    List.eq_replicate_iff.mpr ⟨rfl, h⟩
  have hloop : compileLoop text.toList [] (Combine.new []) = .ok (Combine.new []) := by
    rw [hrep]
    have := compileLoop_spaces text.toList.length [] (Combine.new [])
    simp only [List.append_nil] at this
    rw [this]
    simp [compileLoop, resolve_nil]
  have hc : compile text = .ok (.combine 0 0 true []) := by
    unfold compile
    rw [hloop]
    rfl
  refine ⟨hc, ?_, ?_, ?_, rfl, rfl⟩
  · rw [hc]; rfl
  · rw [hc]; rfl
  · intro st
    rw [hc]
    rfl

/-- The text of three spaces compiles to the empty pipeline. -/
theorem compile_spaces_witness :
    (∀ c ∈ ("   " : String).toList, c = ' ') ∧
    (compile "   " = .ok (.combine 0 0 true []) ∧
    (compile "   ").map Statement.contract = .ok (0, 0, true) ∧
    (compile "   ").map Statement.ops = .ok [] ∧
    (∀ st, run (compile "   ") st = .ok st) ∧
    compile "" = .ok (.combine 0 0 true []) ∧
    run (compile "") ([], []) = .ok ([], [])) :=
  ⟨by decide, compile_spaces "   " (by decide)⟩

/-- C12, the claim at the tokens `foo`, `2147483648`: `compile` of the joined sequence
does not succeed, `std::stoi` throws `std::out_of_range`. -/
theorem compile_oversized_literal_fails :
    compile (String.mk (spaceJoin [['f', 'o', 'o'],
      ['2', '1', '4', '7', '4', '8', '3', '6', '4', '8']])) = .error .out_of_range := by
  rfl

theorem resolve_ok_of_small (result : Combine) (t : List Char)
    (h : ∀ g, constantRegex t = some g → digitsValue g.2 ≤ 2147483647) :
    ∃ out, resolve result t = .ok out := by
  unfold resolve
  split
  · exact ⟨_, rfl⟩
  · split
    · rename_i numMatch hm
      have hv := h numMatch hm
      have hst : stoi numMatch.2 = .ok (digitsValue numMatch.2 : Int) := by
        unfold stoi
        rw [if_neg (by omega)]
      rw [hst]
      exact ⟨_, rfl⟩
    · split
      · exact ⟨_, rfl⟩
      · exact ⟨_, rfl⟩

theorem resolveAll_ok_of_small (tokens : List (List Char)) :
    ∀ (result : Combine),
      (∀ t ∈ tokens, ∀ g, constantRegex t = some g → digitsValue g.2 ≤ 2147483647) →
      ∃ out, resolveAll result tokens = .ok out := by
  induction tokens with
  | nil => intro result _; exact ⟨result, rfl⟩
  | cons t ts ih =>
    intro result h
    obtain ⟨r1, hr1⟩ := resolve_ok_of_small result t (h t (List.mem_cons_self t ts))
    obtain ⟨out, hout⟩ := ih r1 (fun u hu => h u (List.mem_cons_of_mem t hu))
    exact ⟨out, by simp only [resolveAll, hr1, hout]⟩

theorem compile_spaceJoin (tokens : List (List Char))
    (h : ∀ t ∈ tokens, ∀ c ∈ t, c ≠ ' ') :
    compile (String.mk (spaceJoin tokens)) =
      match resolveAll (Combine.new []) tokens with
      | .error e => .error e
      | .ok result => .ok result.toStatement := by
  have hlist : (String.mk (spaceJoin tokens)).toList = spaceJoin tokens := rfl
  unfold compile
  rw [hlist, compileLoop_spaceJoin tokens _ h]

/-- C12 as amended: for every sequence of tokens without spaces, `compile` of the
sequence joined by spaces has the same outcome as `compile` of the sequence with every
token that is neither an integer literal nor a mnemonic removed, hence the same child
list, `(arguments, results, pure)` and `apply`; and it succeeds when no integer literal
of the sequence has digits that denote more than `2147483647`. -/
theorem compile_drops_unrecognized (tokens : List (List Char))
    (h : ∀ t ∈ tokens, ∀ c ∈ t, c ≠ ' ') :
    compile (String.mk (spaceJoin tokens)) =
      compile (String.mk (spaceJoin (tokens.filter recognized))) ∧
    ((∀ t ∈ tokens, ∀ g, constantRegex t = some g → digitsValue g.2 ≤ 2147483647) →
      ∃ P, compile (String.mk (spaceJoin tokens)) = .ok P) := by
  have hf : ∀ t ∈ tokens.filter recognized, ∀ c ∈ t, c ≠ ' ' :=
    fun t ht => h t (List.mem_of_mem_filter ht)
  constructor
  · rw [compile_spaceJoin tokens h, compile_spaceJoin _ hf, resolveAll_filter]
  · intro hsmall
    obtain ⟨out, hout⟩ := resolveAll_ok_of_small tokens (Combine.new []) hsmall
    exact ⟨out.toStatement, by rw [compile_spaceJoin tokens h, hout]⟩

/-- The tokens `1`, `foo`, `+` compile as the tokens `1`, `+`. -/
theorem compile_drops_unrecognized_witness :
    (∀ t ∈ [['1'], ['f', 'o', 'o'], ['+']], ∀ c ∈ t, c ≠ ' ') ∧
    (compile (String.mk (spaceJoin [['1'], ['f', 'o', 'o'], ['+']])) =
      compile (String.mk (spaceJoin ([['1'], ['f', 'o', 'o'], ['+']].filter recognized))) ∧
    ((∀ t ∈ [['1'], ['f', 'o', 'o'], ['+']], ∀ g, constantRegex t = some g →
        digitsValue g.2 ≤ 2147483647) →
      ∃ P, compile (String.mk (spaceJoin [['1'], ['f', 'o', 'o'], ['+']])) = .ok P)) :=
  ⟨by decide, compile_drops_unrecognized [['1'], ['f', 'o', 'o'], ['+']] (by decide)⟩


/-! ## Tab and newline -/

/-- C13, the claim at `compile("1\t2")`: the text is one token, which is neither a
literal nor a mnemonic, so the pipeline is empty and maps `[]` to `[]`, whereas
`compile("1 2")` maps `[]` to `[1, 2]`. -/
theorem compile_tab_one_token :
    run (compile "1\t2") ([], []) = .ok ([], []) ∧
    run (compile "1\n2") ([], []) = .ok ([], []) ∧
    run (compile "1 2") ([], []) = .ok ([1, 2], []) := by
  decide

/-- The characters of a token that matches `constantRegex` are signs and digits. -/
theorem constantRegex_chars (t : List Char) (g : List Char × List Char)
    (h : constantRegex t = some g) : ∀ c ∈ t, c.isDigit = true ∨ c = '+' ∨ c = '-' := by
  unfold constantRegex at h
  split at h
  · rename_i ds
    simp only [ne_eq, List.all_eq_true, Option.ite_none_right_eq_some] at h
    intro c hc
    simp only [List.mem_cons] at hc
    rcases hc with hc | hc
    · exact Or.inr (Or.inl hc)
    · exact Or.inl (h.1.2 c hc)
  · rename_i ds
    simp only [ne_eq, List.all_eq_true, Option.ite_none_right_eq_some] at h
    intro c hc
    simp only [List.mem_cons] at hc
    rcases hc with hc | hc
    · exact Or.inr (Or.inr hc)
    · exact Or.inl (h.1.2 c hc)
  · simp only [ne_eq, List.all_eq_true, Option.ite_none_right_eq_some] at h
    intro c hc
    exact Or.inl (h.1.2 c hc)

/-- A token that holds a character which is no sign, digit or lower-case letter is
neither a literal nor a mnemonic. -/
theorem recognized_false_of_mem (t : List Char) (x : Char) (hx : x ∈ t)
    (hdig : x.isDigit = false) (hlow : x.isLower = false) (hp : x ≠ '+') (hm : x ≠ '-')
    (hs : x ≠ '*') (hd : x ≠ '/') (hpc : x ≠ '%') : recognized t = false := by
  have h1 : constantRegex t = none := by
    cases hc : constantRegex t with
    | none => rfl
    | some g =>
      rcases constantRegex_chars t g hc x hx with h | h | h
      · rw [hdig] at h; simp at h
      · exact absurd h hp
      · exact absurd h hm
  have h2 : symbolLookup t = none := by
    cases hc : symbolLookup t with
    | none => rfl
    | some op =>
      have hmem := symbolLookup_mem t op hc
      simp only [symbolMatch, List.mem_cons, List.mem_singleton, List.not_mem_nil, or_false,
        Prod.mk.injEq] at hmem
      exfalso
      rcases hmem with h | h | h | h | h | h | h | h <;> obtain ⟨h, _⟩ := h <;> subst h <;>
        simp only [List.mem_cons, List.mem_singleton, List.not_mem_nil, or_false] at hx
      · exact hp hx
      · exact hm hx
      · exact hs hx
      · exact hd hx
      · exact hpc hx
      · rcases hx with h | h | h <;> subst h <;> simp at hlow
      · rcases hx with h | h | h | h | h <;> subst h <;> simp at hlow
      · rcases hx with h | h | h <;> subst h <;> simp at hlow
  simp [recognized, h1, h2]

/-- C13 as amended: only the space separates tokens; a tab or a newline is a character
of the token. For tokens `t1`, `t2` without spaces, `t1 + TAB + t2` and
`t1 + NEWLINE + t2` are each compiled as one token, which is neither a literal nor a
mnemonic: the result is the empty pipeline, e.g. `compile("1\t2")` maps `[]` to `[]`. -/
theorem compile_tab_newline (t1 t2 : List Char)
    (h1 : ∀ c ∈ t1, c ≠ ' ') (h2 : ∀ c ∈ t2, c ≠ ' ') :
    compile (String.mk (t1 ++ '\t' :: t2)) = .ok (.combine 0 0 true []) ∧
    compile (String.mk (t1 ++ '\n' :: t2)) = .ok (.combine 0 0 true []) ∧
    run (compile "1\t2") ([], []) = .ok ([], []) := by
  have key : ∀ x : Char, x ≠ ' ' → x.isDigit = false → x.isLower = false → x ≠ '+' →
      x ≠ '-' → x ≠ '*' → x ≠ '/' → x ≠ '%' →
      compile (String.mk (t1 ++ x :: t2)) = .ok (.combine 0 0 true []) := by
    intro x hsp hdig hlow hp hm hs hd hpc
    have hlist : (String.mk (t1 ++ x :: t2)).toList = t1 ++ x :: t2 := rfl
    have hfree : ∀ c ∈ t1 ++ x :: t2, c ≠ ' ' := by
      intro c hc
      simp only [List.mem_append, List.mem_cons] at hc
      rcases hc with hc | hc | hc
      · exact h1 c hc
      · rw [hc]; exact hsp
      · exact h2 c hc
    have hrec : recognized (t1 ++ x :: t2) = false :=
      recognized_false_of_mem _ x (by simp) hdig hlow hp hm hs hd hpc
    unfold compile
    rw [hlist, compileLoop_token _ [] _ hfree, List.nil_append,
      resolve_unrecognized _ _ hrec]
    rfl
  refine ⟨?_, ?_, by decide⟩
  · exact key '\t' (by decide) (by decide) (by decide) (by decide) (by decide) (by decide)
      (by decide) (by decide)
  · exact key '\n' (by decide) (by decide) (by decide) (by decide) (by decide) (by decide)
      (by decide) (by decide)

/-- The tokens `1` and `2` around a tab or a newline. -/
theorem compile_tab_newline_witness :
    ((∀ c ∈ ['1'], c ≠ ' ') ∧ (∀ c ∈ ['2'], c ≠ ' ')) ∧
    (compile (String.mk (['1'] ++ '\t' :: ['2'])) = .ok (.combine 0 0 true []) ∧
    compile (String.mk (['1'] ++ '\n' :: ['2'])) = .ok (.combine 0 0 true []) ∧
    run (compile "1\t2") ([], []) = .ok ([], [])) :=
  ⟨⟨by decide, by decide⟩, compile_tab_newline ['1'] ['2'] (by decide) (by decide)⟩

/-! ## Padding -/

/-- The program `complicated_zero` of `main`. -/
theorem complicated_zero_apply :
    (compile " 1    4  3 4   5  6 + -      - 3    / % -    ").map Statement.contract =
      .ok (0, 1, true) ∧
    run (compile " 1    4  3 4   5  6 + -      - 3    / % -    ") ([], []) =
      .ok ([0], []) := by
  constructor <;> decide

/-- C16: `compile` does not depend on the amount of padding. For tokens without spaces,
the text with `lead` spaces in front, `gap + 1` spaces after each token but the last and
`trail` spaces at the end has the same outcome of `compile` (child list and
`(arguments, results, pure)`) as the tokens joined by single spaces; and the padded
program of `main` has arity `(0, 1)`, is pure and maps `[]` to `[0]`. -/
theorem compile_padding (lead trail : Nat) (toks : List (List Char × Nat))
    (h : ∀ p ∈ toks, ∀ c ∈ p.1, c ≠ ' ') :
    compile (String.mk (List.replicate lead ' ' ++ padJoin trail toks)) =
      compile (String.mk (spaceJoin (toks.map Prod.fst))) ∧
    (compile " 1    4  3 4   5  6 + -      - 3    / % -    ").map Statement.contract =
      .ok (0, 1, true) ∧
    run (compile " 1    4  3 4   5  6 + -      - 3    / % -    ") ([], []) =
      .ok ([0], []) := by
  refine ⟨?_, complicated_zero_apply.1, complicated_zero_apply.2⟩
  have hfree : ∀ t ∈ toks.map Prod.fst, ∀ c ∈ t, c ≠ ' ' := by
    intro t ht
    simp only [List.mem_map] at ht
    obtain ⟨p, hp, rfl⟩ := ht
    exact h p hp
  have hlist : (String.mk (List.replicate lead ' ' ++ padJoin trail toks)).toList =
      List.replicate lead ' ' ++ padJoin trail toks := rfl
  rw [compile_spaceJoin _ hfree]
  unfold compile
  rw [hlist, compileLoop_spaces, compileLoop_padJoin trail toks _ h]

/-- The tokens `1`, `2`, `+` with two leading spaces, gaps of three and one spaces and
four trailing spaces. -/
theorem compile_padding_witness :
    (∀ p ∈ [(['1'], 2), (['2'], 0), (['+'], 0)], ∀ c ∈ p.1, c ≠ ' ') ∧
    (compile (String.mk (List.replicate 2 ' ' ++
        padJoin 4 [(['1'], 2), (['2'], 0), (['+'], 0)])) =
      compile (String.mk (spaceJoin ([(['1'], 2), (['2'], 0), (['+'], 0)].map Prod.fst))) ∧
    (compile " 1    4  3 4   5  6 + -      - 3    / % -    ").map Statement.contract =
      .ok (0, 1, true) ∧
    run (compile " 1    4  3 4   5  6 + -      - 3    / % -    ") ([], []) =
      .ok ([0], [])) :=
  ⟨by decide, compile_padding 2 4 [(['1'], 2), (['2'], 0), (['+'], 0)] (by decide)⟩


/-! ## Integer literals that do not fit -/

theorem resolve_oversized (result : Combine) (t : List Char) (g : List Char × List Char)
    (hg : constantRegex t = some g) (hbig : digitsValue g.2 > 2147483647) :
    resolve result t = .error .out_of_range := by
  have hne : t ≠ [] := by
    intro h
    subst h
    simp [constantRegex] at hg
  simp only [resolve, if_neg hne, hg, stoi, if_pos hbig]

theorem resolveAll_oversized (tokens : List (List Char)) :
    ∀ (result : Combine) (t : List Char) (g : List Char × List Char), t ∈ tokens →
      constantRegex t = some g → digitsValue g.2 > 2147483647 →
      resolveAll result tokens = .error .out_of_range := by
  induction tokens with
  | nil => intro result t g ht; simp at ht
  | cons u us ih =>
    intro result t g ht hg hbig
    simp only [resolveAll]
    cases hr : resolve result u with
    | error e => rw [resolve_error result u e hr]
    | ok result1 =>
      simp only
      simp only [List.mem_cons] at ht
      rcases ht with ht | ht
      · subst ht
        rw [resolve_oversized result t g hg hbig] at hr
        simp at hr
      · exact ih result1 t g ht hg hbig

theorem symbolMatch_not_literal (entry : List Char × Statement) (h : entry ∈ symbolMatch) :
    entry.2.literalValue = none := by
  simp only [symbolMatch, List.mem_cons, List.mem_singleton, List.not_mem_nil, or_false] at h
  rcases h with h | h | h | h | h | h | h | h <;> subst h <;> rfl

theorem Combine.append_literalsInRange (P : Combine) (c : Statement)
    (hP : P.LiteralsInRange)
    (hc : ∀ v, c.literalValue = some v → -2147483647 ≤ v ∧ v ≤ 2147483647) :
    (P.append c).LiteralsInRange := by
  intro d hd v hv
  rw [Combine.append_ops] at hd
  simp only [List.mem_append, List.mem_singleton] at hd
  rcases hd with hd | hd
  · exact hP d hd v hv
  · subst hd; exact hc v hv

theorem resolve_literalsInRange (result : Combine) (buf : List Char) (out : Combine)
    (h : resolve result buf = .ok out) (hres : result.LiteralsInRange) :
    out.LiteralsInRange := by
  unfold resolve at h
  split at h
  · simp only [Except.ok.injEq] at h; subst h; exact hres
  · split at h
    · rename_i numMatch _
      split at h
      · simp at h
      · rename_i val hst
        simp only [Except.ok.injEq] at h
        subst h
        refine Combine.append_literalsInRange _ _ hres ?_
        intro v hv
        simp only [Statement.literalValue, Option.some.injEq] at hv
        subst hv
        unfold stoi at hst
        split at hst
        · simp at hst
        · rename_i hle
          simp only [Except.ok.injEq] at hst
          subst hst
          split <;> omega
    · split at h
      · rename_i op hop
        simp only [Except.ok.injEq] at h
        subst h
        refine Combine.append_literalsInRange _ _ hres ?_
        intro v hv
        rw [symbolMatch_not_literal (buf, op) (symbolLookup_mem buf op hop)] at hv
        simp at hv
      · simp only [Except.ok.injEq] at h; subst h; exact hres

theorem compileLoop_literalsInRange (str : List Char) :
    ∀ (buf : List Char) (result out : Combine), compileLoop str buf result = .ok out →
      result.LiteralsInRange → out.LiteralsInRange := by
  induction str with
  | nil =>
    intro buf result out h hres
    exact resolve_literalsInRange result buf out h hres
  | cons c str ih =>
    intro buf result out h hres
    simp only [compileLoop] at h
    split at h
    · exact ih _ _ _ h hres
    · split at h
      · simp at h
      · rename_i result1 h1
        exact ih _ _ _ h (resolve_literalsInRange result buf result1 h1 hres)

/-- C20: a text that holds, among its tokens without spaces, an integer literal whose
digits denote more than `2147483647` makes `compile` fail with the `std::out_of_range`
of `std::stoi`; the sign is applied after the digits are parsed, so
`compile("-2147483648")` fails as well; and every `ConstOp` of a pipeline that `compile`
returns holds a value in `[-2147483647, 2147483647]`. -/
theorem stoi_literal_range :
    (∀ (tokens : List (List Char)) (t : List Char) (g : List Char × List Char),
      (∀ u ∈ tokens, ∀ c ∈ u, c ≠ ' ') → t ∈ tokens → constantRegex t = some g →
      digitsValue g.2 > 2147483647 →
      compile (String.mk (spaceJoin tokens)) = .error .out_of_range) ∧
    compile "-2147483648" = .error .out_of_range ∧
    compile "2147483648" = .error .out_of_range ∧
    (compile "-2147483647").map Statement.ops = .ok [.constOp (-2147483647)] ∧
    (∀ (text : String) (P : Statement), compile text = .ok P →
      ∀ c ∈ P.ops, ∀ v, c.literalValue = some v → -2147483647 ≤ v ∧ v ≤ 2147483647) := by
  refine ⟨?_, rfl, rfl, rfl, ?_⟩
  · intro tokens t g hfree ht hg hbig
    rw [compile_spaceJoin tokens hfree, resolveAll_oversized tokens _ t g ht hg hbig]
  · intro text P hP
    unfold compile at hP
    split at hP
    · simp at hP
    · rename_i result hloop
      simp only [Except.ok.injEq] at hP
      subst hP
      have hnew : (Combine.new []).LiteralsInRange := by
        intro c hc
        simp [Combine.new] at hc
      exact compileLoop_literalsInRange _ _ _ _ hloop hnew

/-- The tokens `1`, `-2147483648`, and the program `-5`. -/
theorem stoi_literal_range_witness :
    ((∀ u ∈ [['1'], ['-', '2', '1', '4', '7', '4', '8', '3', '6', '4', '8']],
        ∀ c ∈ u, c ≠ ' ') ∧
      ['-', '2', '1', '4', '7', '4', '8', '3', '6', '4', '8'] ∈
        [['1'], ['-', '2', '1', '4', '7', '4', '8', '3', '6', '4', '8']] ∧
      constantRegex ['-', '2', '1', '4', '7', '4', '8', '3', '6', '4', '8'] =
        some (['-'], ['2', '1', '4', '7', '4', '8', '3', '6', '4', '8']) ∧
      digitsValue ['2', '1', '4', '7', '4', '8', '3', '6', '4', '8'] > 2147483647 ∧
      compile "-5" = .ok (.combine 0 1 true [.constOp (-5)])) ∧
    (compile (String.mk (spaceJoin
        [['1'], ['-', '2', '1', '4', '7', '4', '8', '3', '6', '4', '8']])) =
      .error .out_of_range ∧
    ∀ c ∈ (Statement.combine 0 1 true [.constOp (-5)]).ops, ∀ v,
      c.literalValue = some v → -2147483647 ≤ v ∧ v ≤ 2147483647) :=
  ⟨⟨by decide, by decide, by decide, by decide, rfl⟩,
    stoi_literal_range.1 [['1'], ['-', '2', '1', '4', '7', '4', '8', '3', '6', '4', '8']]
      ['-', '2', '1', '4', '7', '4', '8', '3', '6', '4', '8']
      (['-'], ['2', '1', '4', '7', '4', '8', '3', '6', '4', '8'])
      (by decide) (by decide) (by decide) (by decide),
    stoi_literal_range.2.2.2.2 "-5" _ rfl⟩


/-! ## Counts derived by `Combine::append` -/

theorem Combine.append_triple (P : Combine) (c : Statement) :
    (P.append c).triple =
      (if P.results < c.get_arguments_count then
          (P.arguments + (c.get_arguments_count - P.results), c.get_results_count,
            P.pure && c.is_pure)
        else
          (P.arguments, P.results + (c.get_results_count - c.get_arguments_count),
            P.pure && c.is_pure)) := by
  unfold Combine.append Combine.triple
  split <;> rfl

theorem Combine.append_arguments (P : Combine) (c : Statement) :
    (P.append c).arguments =
      if P.results < c.get_arguments_count then
        P.arguments + (c.get_arguments_count - P.results) else P.arguments := by
  unfold Combine.append
  split <;> rfl

theorem Combine.append_results (P : Combine) (c : Statement) :
    (P.append c).results =
      if P.results < c.get_arguments_count then c.get_results_count
      else P.results + (c.get_results_count - c.get_arguments_count) := by
  unfold Combine.append
  split <;> rfl

theorem Combine.append_arguments_le (P : Combine) (c : Statement) :
    P.arguments ≤ (P.append c).arguments := by
  unfold Combine.append
  split
  · simp only; omega
  · exact le_refl _

theorem Combine.appendAll_nil (P : Combine) : P.appendAll [] = P := rfl

theorem Combine.appendAll_cons (P : Combine) (c : Statement) (cs : List Statement) :
    P.appendAll (c :: cs) = (P.append c).appendAll cs := rfl

theorem Combine.appendAll_append (P : Combine) (cs ds : List Statement) :
    P.appendAll (cs ++ ds) = (P.appendAll cs).appendAll ds := by
  simp [Combine.appendAll, List.foldl_append]

theorem Combine.appendAll_concat (P : Combine) (cs : List Statement) (c : Statement) :
    P.appendAll (cs ++ [c]) = (P.appendAll cs).append c := by
  rw [Combine.appendAll_append]
  rfl

theorem Combine.appendAll_ops (cs : List Statement) :
    ∀ P : Combine, (P.appendAll cs).ops = P.ops ++ cs := by
  induction cs with
  | nil => intro P; simp [Combine.appendAll_nil]
  | cons c cs ih =>
    intro P
    rw [Combine.appendAll_cons, ih, Combine.append_ops]
    simp

theorem Combine.appendAll_arguments_le (cs : List Statement) :
    ∀ P : Combine, P.arguments ≤ (P.appendAll cs).arguments := by
  induction cs with
  | nil => intro P; exact le_refl _
  | cons c cs ih =>
    intro P
    rw [Combine.appendAll_cons]
    exact le_trans (Combine.append_arguments_le P c) (ih _)

theorem Combine.appendAll_nonneg (cs : List Statement) :
    ∀ P : Combine, 0 ≤ P.arguments → 0 ≤ P.results →
      (∀ c ∈ cs, 0 ≤ c.get_arguments_count ∧ 0 ≤ c.get_results_count) →
      0 ≤ (P.appendAll cs).arguments ∧ 0 ≤ (P.appendAll cs).results := by
  induction cs with
  | nil => intro P hA hR _; exact ⟨hA, hR⟩
  | cons c cs ih =>
    intro P hA hR h
    rw [Combine.appendAll_cons]
    have hc := h c (List.mem_cons_self c cs)
    refine ih _ ?_ ?_ (fun d hd => h d (List.mem_cons_of_mem c hd))
    · exact le_trans hA (Combine.append_arguments_le P c)
    · unfold Combine.append
      split
      · exact hc.2
      · simp only; omega

/-- C17: a pipeline built from the empty pipeline by appending children whose
`arguments` and `results` are non-negative has non-negative derived `arguments` and
`results`, and appending further children never lowers `arguments`; every pipeline
that `compile` returns has non-negative counts. -/
theorem append_counts_nonneg (children further : List Statement)
    (h : ∀ c ∈ children, 0 ≤ c.get_arguments_count ∧ 0 ≤ c.get_results_count) :
    0 ≤ ((Combine.new []).appendAll children).arguments ∧
    0 ≤ ((Combine.new []).appendAll children).results ∧
    ((Combine.new []).appendAll children).arguments ≤
      ((Combine.new []).appendAll (children ++ further)).arguments ∧
    (∀ (text : String) (P : Statement), compile text = .ok P →
      0 ≤ P.get_arguments_count ∧ 0 ≤ P.get_results_count) := by
  have hnn := Combine.appendAll_nonneg children (Combine.new []) (le_refl _) (le_refl _) h
  refine ⟨hnn.1, hnn.2, ?_, ?_⟩
  · rw [Combine.appendAll_append]
    exact Combine.appendAll_arguments_le further _
  · intro text P hP
    have hc := compile_conforms text P hP
    exact ⟨hc.args_nonneg, hc.res_nonneg⟩

/-- The children `dup`, `*`, followed by `+`. -/
theorem append_counts_nonneg_witness :
    (∀ c ∈ [dublicate, mult], 0 ≤ c.get_arguments_count ∧ 0 ≤ c.get_results_count) ∧
    (0 ≤ ((Combine.new []).appendAll [dublicate, mult]).arguments ∧
    0 ≤ ((Combine.new []).appendAll [dublicate, mult]).results ∧
    ((Combine.new []).appendAll [dublicate, mult]).arguments ≤
      ((Combine.new []).appendAll ([dublicate, mult] ++ [plus])).arguments ∧
    (∀ (text : String) (P : Statement), compile text = .ok P →
      0 ≤ P.get_arguments_count ∧ 0 ≤ P.get_results_count)) :=
  ⟨by simp [dublicate, mult, Statement.get_arguments_count, Statement.get_results_count],
    append_counts_nonneg [dublicate, mult] [plus]
      (by simp [dublicate, mult, Statement.get_arguments_count, Statement.get_results_count])⟩

/-- The bookkeeping of `append` is associative: appending a child to a pipeline that is
itself appended as one child gives the same triple as appending the pipeline and then
the child. -/
theorem Combine.append_assoc_triple (S T : Combine) (c : Statement) :
    (S.append (T.append c).toStatement).triple =
      ((S.append T.toStatement).append c).triple := by
  have h1 : ∀ U : Combine, U.toStatement.get_arguments_count = U.arguments := fun _ => rfl
  have h2 : ∀ U : Combine, U.toStatement.get_results_count = U.results := fun _ => rfl
  have h3 : ∀ U : Combine, U.toStatement.is_pure = U.pure := fun _ => rfl
  rw [Combine.append_triple, Combine.append_triple]
  simp only [h1, h2, h3, Combine.append_arguments, Combine.append_results,
    Combine.append_pure]
  split_ifs <;> simp only [Prod.mk.injEq, Bool.and_assoc, and_true, true_and] <;> omega

/-- Two pipelines with the same triple have the same triple after `append` of the same
child. -/
theorem Combine.append_triple_congr (S T : Combine) (c : Statement)
    (h : S.triple = T.triple) : (S.append c).triple = (T.append c).triple := by
  rw [Combine.append_triple, Combine.append_triple]
  simp only [Combine.triple, Prod.mk.injEq] at h
  obtain ⟨ha, hr, hp⟩ := h
  rw [ha, hr, hp]

theorem Combine.nested_triple (P : Combine) (hP : 0 ≤ P.results)
    (children : List Statement) :
    (P.append ((Combine.new []).appendAll children).toStatement).triple =
      (P.appendAll children).triple := by
  induction children using List.reverseRecOn with
  | nil =>
    rw [Combine.appendAll_nil, Combine.appendAll_nil, Combine.append_triple]
    have hlt : ¬ P.results < (Combine.new []).toStatement.get_arguments_count := by
      show ¬ P.results < 0
      omega
    rw [if_neg hlt]
    simp [Combine.triple, Combine.new, Combine.toStatement, Statement.get_results_count,
      Statement.get_arguments_count, Statement.is_pure]
  | append_singleton cs c ih =>
    rw [Combine.appendAll_concat, Combine.appendAll_concat, Combine.append_assoc_triple]
    exact Combine.append_triple_congr _ _ c ih

/-- C19: contract inference does not depend on nesting. For a pipeline `P` (with
`results ≥ 0`, as every pipeline has) and a pipeline `Q` built by `append` from the
children `children`, appending `Q` to `P` as one child gives the same derived
`(arguments, results, pure)` as appending the children of `Q` to `P` one at a time, and
the two pipelines return the same result from `apply` on every stack and input. -/
theorem append_nested (P : Combine) (children : List Statement) (hP : 0 ≤ P.results) :
    (P.append ((Combine.new []).appendAll children).toStatement).arguments =
      (P.appendAll children).arguments ∧
    (P.append ((Combine.new []).appendAll children).toStatement).results =
      (P.appendAll children).results ∧
    (P.append ((Combine.new []).appendAll children).toStatement).pure =
      (P.appendAll children).pure ∧
    ∀ st, (P.append ((Combine.new []).appendAll children).toStatement).toStatement.apply st =
      (P.appendAll children).toStatement.apply st := by
  have ht := Combine.nested_triple P hP children
  simp only [Combine.triple, Prod.mk.injEq] at ht
  refine ⟨ht.1, ht.2.1, ht.2.2, ?_⟩
  intro st
  have hQ : ∀ st1, ((Combine.new []).appendAll children).toStatement.apply st1 =
      applyOps children st1 := by
    intro st1
    rw [Combine.apply_toStatement, Combine.appendAll_ops]
    simp [Combine.new]
  rw [Combine.apply_toStatement, Combine.apply_toStatement, Combine.append_ops,
    Combine.appendAll_ops, applyOps_concat, applyOps_append]
  simp only [hQ]

/-- The pipeline of `6` with the pipeline of `dup`, `*` appended as one child. -/
theorem append_nested_witness :
    (0 ≤ ((Combine.new []).append (.constOp 6)).results) ∧
    ((((Combine.new []).append (.constOp 6)).append
        ((Combine.new []).appendAll [dublicate, mult]).toStatement).arguments =
      (((Combine.new []).append (.constOp 6)).appendAll [dublicate, mult]).arguments ∧
    (((Combine.new []).append (.constOp 6)).append
        ((Combine.new []).appendAll [dublicate, mult]).toStatement).results =
      (((Combine.new []).append (.constOp 6)).appendAll [dublicate, mult]).results ∧
    (((Combine.new []).append (.constOp 6)).append
        ((Combine.new []).appendAll [dublicate, mult]).toStatement).pure =
      (((Combine.new []).append (.constOp 6)).appendAll [dublicate, mult]).pure ∧
    ∀ st, (((Combine.new []).append (.constOp 6)).append
        ((Combine.new []).appendAll [dublicate, mult]).toStatement).toStatement.apply st =
      (((Combine.new []).append (.constOp 6)).appendAll [dublicate, mult]).toStatement.apply
        st) :=
  ⟨by decide, append_nested ((Combine.new []).append (.constOp 6)) [dublicate, mult]
    (by decide)⟩


/-! ## Arithmetic of the primitives on 32-bit values -/

theorem toInt32_of_isInt32 (x : Int) (h : isInt32 x) : toInt32 x = x := by
  unfold isInt32 at h
  unfold toInt32
  omega

theorem toInt32_spec (x : Int) :
    isInt32 (toInt32 x) ∧ (toInt32 x - x) % 4294967296 = 0 := by
  unfold isInt32 toInt32
  omega

theorem pushResults_all (result inp : List Int) :
    pushResults result 0 result.length inp = .ok (inp ++ result.map toInt32) := by
  have h := pushResults_append [] result.length result inp (le_refl _)
  simpa using h

theorem dublicate_apply (s cin : List Int) (x : Int) :
    dublicate.apply (s ++ [x], cin) = .ok (s ++ [toInt32 x, toInt32 x], cin) := by
  have h := Operation.apply_append 1 2 dublicateFunc s [x] cin rfl
  have hp := pushResults_all [x, x] s
  simp only [Nat.cast_ofNat, Nat.cast_one, List.length_cons, List.length_nil] at h hp
  simp only [dublicate, Statement.apply, h, dublicateFunc, index_single_zero]
  simp only [hp, List.map_cons, List.map_nil]

theorem mult_apply (s cin : List Int) (a b : Int) :
    mult.apply (s ++ [a, b], cin) = .ok (s ++ [toInt32 (a * b)], cin) := by
  have h := Operation.apply_append 2 1 multFunc s [a, b] cin rfl
  have hp := pushResults_all [a * b] s
  simp only [Nat.cast_ofNat, Nat.cast_one, List.length_cons, List.length_nil] at h hp
  simp only [mult, Statement.apply, h, multFunc, index_pair_zero, index_pair_one]
  simp only [hp, List.map_cons, List.map_nil]

theorem sqr_pipeline :
    pipeE (compile "dup") (compile "*") = .ok (.combine 1 2 true [dublicate, mult]) := by
  rfl

/-- C14: the pipeline `compile("dup") | compile("*")` squares its input. For every `n`
of type `int` it maps `[n]` to `[n * n]` reduced modulo `2^32` into the signed 32-bit
range, which is `n * n` itself when `|n| ≤ 46340`. -/
theorem square_apply (n : Int) (cin : List Int) (hn : isInt32 n) :
    run (pipeE (compile "dup") (compile "*")) ([n], cin) = .ok ([toInt32 (n * n)], cin) ∧
    isInt32 (toInt32 (n * n)) ∧ (toInt32 (n * n) - n * n) % 4294967296 = 0 ∧
    (-46340 ≤ n ∧ n ≤ 46340 →
      run (pipeE (compile "dup") (compile "*")) ([n], cin) = .ok ([n * n], cin)) := by
  have hrun : run (pipeE (compile "dup") (compile "*")) ([n], cin) =
      .ok ([toInt32 (n * n)], cin) := by
    rw [sqr_pipeline]
    have hd := dublicate_apply [] cin n
    have hm := mult_apply [] cin n n
    simp only [List.nil_append, toInt32_of_isInt32 n hn] at hd hm
    show applyOps [dublicate, mult] ([n], cin) = _
    rw [show ([dublicate, mult] : List Statement) = [dublicate] ++ [mult] from rfl,
      applyOps_concat, applyOps_singleton, hd]
    exact hm
  refine ⟨hrun, (toInt32_spec (n * n)).1, (toInt32_spec (n * n)).2, ?_⟩
  intro hsmall
  rw [hrun]
  have h1 : 0 ≤ n * n := mul_self_nonneg n
  have h2 : n * n ≤ 2147395600 := by nlinarith [hsmall.1, hsmall.2]
  rw [toInt32_of_isInt32 (n * n) ⟨by omega, by omega⟩]

/-- The square of `10` (the `ten | sqr` of `main`) and of `65536`. -/
theorem square_apply_witness :
    isInt32 10 ∧
    (run (pipeE (compile "dup") (compile "*")) ([10], []) = .ok ([toInt32 (10 * 10)], []) ∧
    isInt32 (toInt32 (10 * 10)) ∧ (toInt32 (10 * 10) - 10 * 10) % 4294967296 = 0 ∧
    (-46340 ≤ (10 : Int) ∧ (10 : Int) ≤ 46340 →
      run (pipeE (compile "dup") (compile "*")) ([10], []) = .ok ([10 * 10], []))) :=
  ⟨by decide, square_apply 10 [] (by decide)⟩

theorem neg_tmod_eq (a b : Int) : Int.tmod (-a) b = -(Int.tmod a b) := by
  rw [Int.tmod_def, Int.tmod_def, Int.neg_tdiv]
  ring

/-- The remainder of the truncating division: smaller than the divisor in absolute
value, and of the sign of the dividend. -/
theorem tmod_bounds (a b : Int) (hb : b ≠ 0) :
    |Int.tmod a b| < |b| ∧ (0 ≤ a → 0 ≤ Int.tmod a b) ∧ (a ≤ 0 → Int.tmod a b ≤ 0) := by
  have pos : ∀ x : Int, 0 ≤ x → 0 ≤ Int.tmod x b ∧ Int.tmod x b < |b| := by
    intro x hx
    refine ⟨Int.tmod_nonneg b hx, ?_⟩
    rcases lt_or_gt_of_ne hb with h | h
    · rw [abs_of_neg h, ← Int.tmod_neg]
      exact Int.tmod_lt_of_pos x (by omega)
    · rw [abs_of_pos h]
      exact Int.tmod_lt_of_pos x h
  rcases le_or_lt 0 a with ha | ha
  · obtain ⟨h1, h2⟩ := pos a ha
    refine ⟨by rw [abs_of_nonneg h1]; exact h2, fun _ => h1, ?_⟩
    intro hle
    have : a = 0 := by omega
    subst this
    simp
  · obtain ⟨h1, h2⟩ := pos (-a) (by omega)
    rw [neg_tmod_eq] at h1 h2
    refine ⟨?_, ?_, fun _ => by omega⟩
    · rw [abs_of_nonpos (by omega)]; exact h2
    · intro h; omega

/-- The truncated quotient of two `int` values is an `int`, but for
`-2147483648 / -1`. -/
theorem tdiv_isInt32 (a b : Int) (ha : isInt32 a) (hb : b ≠ 0)
    (hex : ¬(a = -2147483648 ∧ b = -1)) : isInt32 (Int.tdiv a b) := by
  unfold isInt32 at ha ⊢
  have hnat : (Int.tdiv a b).natAbs = a.natAbs / b.natAbs := Int.natAbs_tdiv a b
  by_cases h1 : b = 1
  · subst h1; simp only [Int.tdiv_one]; exact ha
  by_cases h2 : b = -1
  · subst h2
    have : Int.tdiv a (-1) = -a := by
      show Int.tdiv a (-(1 : Int)) = -a
      rw [Int.tdiv_neg, Int.tdiv_one]
    rw [this]
    omega
  · have hb2 : 2 ≤ b.natAbs := by omega
    have hle : a.natAbs / b.natAbs ≤ a.natAbs / 2 :=
      Nat.div_le_div_left hb2 (by decide)
    omega

theorem tmod_isInt32 (a b : Int) (hb0 : b ≠ 0) (hb : isInt32 b) : isInt32 (Int.tmod a b) := by
  have h := (tmod_bounds a b hb0).1
  unfold isInt32 at hb ⊢
  rw [abs_lt] at h
  rcases abs_cases b with ⟨hbe, _⟩ | ⟨hbe, _⟩ <;> rw [hbe] at h <;> omega

/-- C15, the claim at `a = -2147483648`, `b = -1`: the truncated quotient is
`2147483648`, and `compile("/")` returns `[-2147483648]`. -/
theorem divide_min_by_minus_one :
    Int.tdiv (-2147483648) (-1) = 2147483648 ∧
    run (compile "/") ([-2147483648, -1], []) = .ok ([-2147483648], []) := by
  decide

/-- C15 as amended: for `int` values `a`, `b` with `b ≠ 0`, `compile("/")` maps
`s ++ [a, b]` to `s ++ [q]` with `q` the quotient truncated toward zero, unless
`a = -2147483648` and `b = -1`, where the quotient `2147483648` is narrowed to
`-2147483648`; and `compile("%")` maps `s ++ [a, b]` to `s ++ [r]` with
`a = q * b + r`, `|r| < |b|`, and `r` zero or of the sign of `a`. `-7 / 2` is `-3`. -/
theorem divide_percent_apply (s cin : List Int) (a b : Int)
    (ha : isInt32 a) (hb : isInt32 b) (hb0 : b ≠ 0) :
    run (compile "/") (s ++ [a, b], cin) = .ok (s ++ [toInt32 (Int.tdiv a b)], cin) ∧
    (¬(a = -2147483648 ∧ b = -1) →
      run (compile "/") (s ++ [a, b], cin) = .ok (s ++ [Int.tdiv a b], cin)) ∧
    ((a = -2147483648 ∧ b = -1) →
      run (compile "/") (s ++ [a, b], cin) = .ok (s ++ [-2147483648], cin)) ∧
    run (compile "%") (s ++ [a, b], cin) = .ok (s ++ [Int.tmod a b], cin) ∧
    a = Int.tdiv a b * b + Int.tmod a b ∧ |Int.tmod a b| < |b| ∧
    (0 ≤ a → 0 ≤ Int.tmod a b) ∧ (a ≤ 0 → Int.tmod a b ≤ 0) ∧
    run (compile "/") ([-7, 2], []) = .ok ([-3], []) := by
  have hdiv : compile "/" = .ok (.combine 2 1 true [divide]) := rfl
  have hmod : compile "%" = .ok (.combine 2 1 true [percent]) := rfl
  have hq : run (compile "/") (s ++ [a, b], cin) =
      .ok (s ++ [toInt32 (Int.tdiv a b)], cin) := by
    rw [hdiv]
    have h := run_single 2 1 true divideFunc 2 1 true s [a, b] cin rfl
    simp only [Nat.cast_ofNat, Nat.cast_one] at h
    simp only [divide, h, divideFunc, index_pair_zero, index_pair_one, if_neg hb0]
    simp [pushResults, index]
  have hr : run (compile "%") (s ++ [a, b], cin) = .ok (s ++ [Int.tmod a b], cin) := by
    rw [hmod]
    have h := run_single 2 1 true percentFunc 2 1 true s [a, b] cin rfl
    simp only [Nat.cast_ofNat, Nat.cast_one] at h
    simp only [percent, h, percentFunc, index_pair_zero, index_pair_one, if_neg hb0]
    simp [pushResults, index, toInt32_of_isInt32 _ (tmod_isInt32 a b hb0 hb)]
  have hb3 := tmod_bounds a b hb0
  refine ⟨hq, ?_, ?_, hr, (Int.tdiv_add_tmod' a b).symm, hb3.1, hb3.2.1, hb3.2.2, by decide⟩
  · intro hex
    rw [hq, toInt32_of_isInt32 _ (tdiv_isInt32 a b ha hb0 hex)]
  · intro hex
    rw [hq, hex.1, hex.2]
    rfl

/-- The division and the remainder of `-7` by `2` below the value `5`. -/
theorem divide_percent_apply_witness :
    (isInt32 (-7) ∧ isInt32 2 ∧ (2 : Int) ≠ 0) ∧
    (run (compile "/") ([5] ++ [-7, 2], []) = .ok ([5] ++ [toInt32 (Int.tdiv (-7) 2)], []) ∧
    (¬((-7 : Int) = -2147483648 ∧ (2 : Int) = -1) →
      run (compile "/") ([5] ++ [-7, 2], []) = .ok ([5] ++ [Int.tdiv (-7) 2], [])) ∧
    (((-7 : Int) = -2147483648 ∧ (2 : Int) = -1) →
      run (compile "/") ([5] ++ [-7, 2], []) = .ok ([5] ++ [-2147483648], [])) ∧
    run (compile "%") ([5] ++ [-7, 2], []) = .ok ([5] ++ [Int.tmod (-7) 2], []) ∧
    (-7 : Int) = Int.tdiv (-7) 2 * 2 + Int.tmod (-7) 2 ∧ |Int.tmod (-7) 2| < |(2 : Int)| ∧
    (0 ≤ (-7 : Int) → 0 ≤ Int.tmod (-7) 2) ∧ ((-7 : Int) ≤ 0 → Int.tmod (-7) 2 ≤ 0) ∧
    run (compile "/") ([-7, 2], []) = .ok ([-3], [])) :=
  ⟨⟨by decide, by decide, by decide⟩,
    divide_percent_apply [5] [] (-7) 2 (by decide) (by decide) (by decide)⟩

/-- C18, the claim at `x = -2147483648`: `compile("abs")` returns `[-2147483648]`, a
negative value, not `|x| = 2147483648`. -/
theorem abs_min_negative :
    run (compile "abs") ([-2147483648], []) = .ok ([-2147483648], []) ∧
    |(-2147483648 : Int)| = 2147483648 := by
  constructor
  · decide
  · rfl

/-- C18 as amended: for every stack `s` and every `int` value `x` other than
`-2147483648`, `compile("abs")` maps `s ++ [x]` to `s ++ [|x|]`, a non-negative value;
for `x = -2147483648` the value `2147483648` is narrowed to `-2147483648`. -/
theorem abs_apply (s cin : List Int) (x : Int) (hx : isInt32 x) :
    run (compile "abs") (s ++ [x], cin) = .ok (s ++ [toInt32 |x|], cin) ∧
    (x ≠ -2147483648 →
      run (compile "abs") (s ++ [x], cin) = .ok (s ++ [|x|], cin) ∧ 0 ≤ |x|) ∧
    (x = -2147483648 →
      run (compile "abs") (s ++ [x], cin) = .ok (s ++ [-2147483648], cin)) := by
  have habs : compile "abs" = .ok (.combine 1 1 true [myabs]) := rfl
  have hval : (if x ≥ 0 then x else -x) = |x| := by
    split
    · rename_i h; rw [abs_of_nonneg h]
    · rename_i h; rw [abs_of_neg (by omega)]
  have hrun : run (compile "abs") (s ++ [x], cin) = .ok (s ++ [toInt32 |x|], cin) := by
    rw [habs]
    have h := run_single 1 1 true myabsFunc 1 1 true s [x] cin rfl
    simp only [Nat.cast_ofNat, Nat.cast_one] at h
    simp only [myabs, h, myabsFunc, index_single_zero, hval]
    simp [pushResults, index]
  refine ⟨hrun, ?_, ?_⟩
  · intro hne
    have hr : isInt32 |x| := by
      unfold isInt32 at hx ⊢
      rcases abs_cases x with ⟨he, _⟩ | ⟨he, _⟩ <;> rw [he] <;> omega
    rw [hrun, toInt32_of_isInt32 _ hr]
    exact ⟨rfl, abs_nonneg x⟩
  · intro he
    rw [hrun, he]
    rfl

/-- The absolute value of `-7` below the value `5`. -/
theorem abs_apply_witness :
    isInt32 (-7) ∧
    (run (compile "abs") ([5] ++ [-7], []) = .ok ([5] ++ [toInt32 |(-7 : Int)|], []) ∧
    ((-7 : Int) ≠ -2147483648 →
      run (compile "abs") ([5] ++ [-7], []) = .ok ([5] ++ [|(-7 : Int)|], []) ∧
        0 ≤ |(-7 : Int)|) ∧
    ((-7 : Int) = -2147483648 →
      run (compile "abs") ([5] ++ [-7], []) = .ok ([5] ++ [-2147483648], []))) :=
  ⟨by decide, abs_apply [5] [] (-7) (by decide)⟩

end Calculator
